import Mathlib

/-!
Verification of the caption-extraction pipeline in `ocr_scripts/ocr_pages.py`
and `ocr_scripts/rebuild_search_index.py`.

Python strings are modelled as `List Char` (Lean `String` wraps exactly that).
Python float comparisons of the form `a / b < c` (with `a`, `b` machine
integers, `b > 0`, and `c` a small decimal constant) are rendered as the
exactly equivalent integer comparison obtained by cross-multiplying, e.g.
`alpha / max(1, total) < 0.25` becomes `4 * alpha < max 1 total`.  For the
integer magnitudes occurring here (pixel counts, string lengths) the float
computation is exact enough that the two comparisons agree.  Rational-number
statements of the same facts are recovered in the theorems via bridge lemmas.

Python's Unicode-aware character classes (`str.isalpha`, `str.isupper`,
`str.lower`, ...) are modelled by their ASCII restrictions, which is what the
repository's album names and OCR captions exercise.
-/
/-- Whitespace for Python `str.strip` / `\s` (ASCII portion of `str.isspace`). -/
def isPyWS (c : Char) : Bool :=
  c = ' ' || c = '\t' || c = '\n' || c = '\r' || c = '\x0b' || c = '\x0c'
    || c = '\x1c' || c = '\x1d' || c = '\x1e' || c = '\x1f' || c = '\x85'

/-- Horizontal whitespace, the character class `[ \t]` of `clean_text`. -/
def isHT (c : Char) : Bool := c = ' ' || c = '\t'

/-- Python `str.lstrip()` on a character list. -/
def pyLStrip (l : List Char) : List Char := l.dropWhile isPyWS

/-- Python `str.rstrip()` on a character list. -/
def pyRStrip : List Char → List Char
  | [] => []
  | c :: rest =>
    match pyRStrip rest with
    | [] => if isPyWS c then [] else [c]
    | r => c :: r

/-- Python `str.strip()` on a character list. -/
def pyStrip (l : List Char) : List Char := pyRStrip (pyLStrip l)

/-- Stage 1 of `clean_text` (ocr_pages.py line 40): `s.replace("\x0c", " ")`. -/
def ffFix (c : Char) : Char := if c = '\x0c' then ' ' else c

/-- Stage 2 of `clean_text` (line 41): `s.replace("\r", "\n")`. -/
def crFix (c : Char) : Char := if c = '\r' then '\n' else c

/-- Stage 3 of `clean_text` (line 42): `re.sub(r"[ \t]+", " ", s)`.
The scanner state records whether the previous character was part of a
horizontal-whitespace run: a run emits a single `' '` at its first character
and drops the rest, which is exactly the leftmost greedy replacement. -/
def chtAux : Bool → List Char → List Char
  | _, [] => []
  | inRun, c :: rest =>
    if isHT c then
      if inRun then chtAux true rest else ' ' :: chtAux true rest
    else c :: chtAux false rest

/-- Stage 3 of `clean_text`: collapse every `[ \t]+` run to a single space. -/
def collapseHT (l : List Char) : List Char := chtAux false l

/-- Stage 4 of `clean_text` (line 43): `re.sub(r"\n[ \t]+", "\n", s)`.
The state records whether the previous kept character was a newline; while it
is, horizontal whitespace is dropped (the greedy `[ \t]+` of the match). -/
def sanlAux : Bool → List Char → List Char
  | _, [] => []
  | afterNL, c :: rest =>
    if afterNL && isHT c then sanlAux true rest
    else if c = '\n' then '\n' :: sanlAux true rest
    else c :: sanlAux false rest

/-- Stage 4 of `clean_text`: drop horizontal whitespace directly after `\n`. -/
def stripAfterNL (l : List Char) : List Char := sanlAux false l

/-- Emit a pending run of `n` newlines, replacing runs of three or more with
exactly two — the replacement text of `re.sub(r"\n{3,}", "\n\n", s)`. -/
def emitNL (n : Nat) : List Char :=
  if 3 ≤ n then ['\n', '\n'] else List.replicate n '\n'

/-- Stage 5 of `clean_text` (line 44): `re.sub(r"\n{3,}", "\n\n", s)`.
`pending` counts the newline run read so far; it is flushed through `emitNL`
when the run ends. -/
def cnlAux : Nat → List Char → List Char
  | pending, [] => emitNL pending
  | pending, c :: rest =>
    if c = '\n' then cnlAux (pending + 1) rest
    else emitNL pending ++ c :: cnlAux 0 rest

/-- Stage 5 of `clean_text`: collapse runs of three or more newlines to two. -/
def collapseNL (l : List Char) : List Char := cnlAux 0 l

/-- The composition of all six stages of `clean_text` on character lists. -/
def cleanList (l : List Char) : List Char :=
  pyStrip (collapseNL (stripAfterNL (collapseHT ((l.map ffFix).map crFix))))

/-- Embedding of `clean_text` (ocr_pages.py lines 39-45). -/
def clean_text (s : String) : String := ⟨cleanList s.data⟩

/-!
Normal forms for the idempotence of `clean_text`.  A string is in normal form
when it contains no form feed, carriage return or tab, no two adjacent
horizontal-whitespace characters, no horizontal whitespace directly after a
newline, no three consecutive newlines, and no leading or trailing whitespace.
Each stage of `clean_text` establishes one of these facts and preserves the
earlier ones, and each stage is the identity on strings already in its normal
form.
-/
/-- Scanner: no two adjacent characters of `l` are related by `R`. -/
def noPairR (R : Char → Char → Bool) : List Char → Bool
  | a :: b :: rest => !R a b && noPairR R (b :: rest)
  | _ => true

/-- Scanner: `l` has no three consecutive newline characters. -/
def noNNN : List Char → Bool
  | a :: b :: c :: rest =>
    !(a = '\n' && b = '\n' && c = '\n') && noNNN (b :: c :: rest)
  | _ => true

/-- Both characters are horizontal whitespace (adjacent such pairs are
eliminated by stage 3 of `clean_text`). -/
def adjHT (a b : Char) : Bool := isHT a && isHT b

/-- A newline followed by horizontal whitespace (eliminated by stage 4). -/
def adjNH (a b : Char) : Bool := a = '\n' && isHT b

/-!
Overlap suppression of `find_candidate_boxes` (ocr_pages.py lines 262-293).
Coordinates are Python integers, modelled as `Int`.
-/
/-- An axis-aligned rectangle `(x, y, w, h)` as appended by
`find_candidate_boxes` (ocr_pages.py line 258). -/
structure Box where
  x : Int
  y : Int
  w : Int
  h : Int
deriving DecidableEq, Repr

/-- Pixel area `bw * bh` of a box (lines 281, 285). -/
def Box.area (b : Box) : Int := b.w * b.h

/-- Intersection area of `b` and a kept box `m` (lines 273-277):
`max(0, ix2 - ix1) * max(0, iy2 - iy1)`. -/
def interArea (b m : Box) : Int :=
  max 0 (min (b.x + b.w) (m.x + m.w) - max b.x m.x) *
    max 0 (min (b.y + b.h) (m.y + m.h) - max b.y m.y)

/-- Union area `bw * bh + mw * mh - inter` (line 281). -/
def unionArea (b m : Box) : Int := b.area + m.area - interArea b m

/-- The test `iou > 0.25` of line 284, where
`iou = inter / max(1, union)` (line 282); in exact integer form
(`a / d > 1/4  ↔  4 * a > d` for the positive denominator `d`). -/
def iouGT (b m : Box) : Bool := 4 * interArea b m > max 1 (unionArea b m)

/-- Intersection-over-union `inter / max(1, union)` (line 282) as an exact
rational number, used in theorem statements. -/
def iou (b m : Box) : ℚ :=
  (interArea b m : ℚ) / ((max 1 (unionArea b m) : Int) : ℚ)

/-- The inner suppression loop of `find_candidate_boxes` (lines 269-288):
scan the kept list left to right; at the first kept box `m` with nonzero
intersection and IoU above 0.25, replace `merged[j]` by `b` when `b` has
strictly larger area, stop scanning (`keep = False; break`), and return the
updated kept list.  `none` means no kept box matched (so `b` is appended). -/
def mergeScan (b : Box) : List Box → Option (List Box)
  | [] => none
  | m :: rest =>
    if interArea b m = 0 then (mergeScan b rest).map (m :: ·)
    else if iouGT b m then
      some ((if b.area > m.area then b else m) :: rest)
    else (mergeScan b rest).map (m :: ·)

/-- One iteration of the outer suppression loop (lines 264-291): if the scan
found no overlapping kept box, `b` is appended. -/
def mergeStep (acc : List Box) (b : Box) : List Box :=
  match mergeScan b acc with
  | some acc2 => acc2
  | none => acc ++ [b]

/-- The IoU suppression stage of `find_candidate_boxes` (lines 262-293). -/
def mergeBoxes (boxes : List Box) : List Box := boxes.foldl mergeStep []

/-!
Slug generation: `generate_album_slug` in ocr_pages.py (lines 468-502) and
its namesake in rebuild_search_index.py (lines 18-67).
-/
/-- Apostrophe variants removed by both slug functions: U+0027, U+2018,
U+2019, U+201B. -/
def isApos (c : Char) : Bool :=
  c = '\'' || c = '‘' || c = '’' || c = '‛'

/-- Bracket characters removed only by the rebuild script's slug function:
parentheses, square brackets and curly braces. -/
def isBracketChar (c : Char) : Bool :=
  c = '(' || c = ')' || c = '[' || c = ']' || c = '\x7b' || c = '\x7d'

/-- Python `slug.replace(' & ', '--')`: non-overlapping replacement of the
three-character pattern space-ampersand-space, scanning left to right. -/
def replaceAmpSpaced : List Char → List Char
  | ' ' :: '&' :: ' ' :: rest => '-' :: '-' :: replaceAmpSpaced rest
  | c :: rest => c :: replaceAmpSpaced rest
  | [] => []

/-- Embedding of `generate_album_slug` from ocr_pages.py (lines 468-502):
lowercase, replace `' & '` by `'--'`, remove apostrophe variants, replace
spaces by dashes.  Lowercasing uses the ASCII `Char.toLower`. -/
def ocr_generate_album_slug (s : String) : String :=
  ⟨((replaceAmpSpaced (s.data.map Char.toLower)).filter
      (fun c => !isApos c)).map (fun c => if c = ' ' then '-' else c)⟩

/-- Embedding of `generate_album_slug` from rebuild_search_index.py
(lines 18-67): like the ocr_pages.py version but additionally removing the
bracket characters `()[]` and braces after the `' & '` replacement, and
removing remaining standalone ampersands after the apostrophe removal. -/
def rebuild_generate_album_slug (s : String) : String :=
  ⟨((((replaceAmpSpaced (s.data.map Char.toLower)).filter
        (fun c => !isBracketChar c)).filter
        (fun c => !isApos c)).filter
        (fun c => !(c == '&'))).map (fun c => if c = ' ' then '-' else c)⟩

/-!
Argument validation of `main` (ocr_pages.py lines 783-802).
-/
/-- Python truthiness of an optional string argument: `None` and the empty
string are both falsy (the `not in_dir` tests of lines 795 and 801). -/
def falsyOpt : Option String → Bool
  | none => true
  | some s => s.isEmpty

/-- The processing `main` would start after validating its arguments. -/
inductive MainAction where
  | runBatch (inDir searchIndexPath : String) : MainAction
  | runSingle (inDir outPath : String) : MainAction
deriving DecidableEq, Repr

/-- Embedding of the dispatch of `main` (ocr_pages.py lines 794-812): in
batch mode a missing or empty input directory or search-index path raises
`ValueError` (modelled as `Except.error`) before `process_albums_batch` is
invoked; in single-album mode a missing input folder or output path raises
before any image is read.  The returned `MainAction` stands for the work
that only starts after validation succeeds. -/
def mainDispatch (inDir outPath searchIndexPath : Option String)
    (batchMode : Bool) : Except String MainAction :=
  if batchMode then
    if falsyOpt inDir || falsyOpt searchIndexPath then
      Except.error "Batch mode requires both input directory and search index path"
    else
      Except.ok (MainAction.runBatch (inDir.getD "") (searchIndexPath.getD ""))
  else if falsyOpt inDir || falsyOpt outPath then
    Except.error "Single album mode requires input_folder and output_json"
  else Except.ok (MainAction.runSingle (inDir.getD "") (outPath.getD ""))

/-!
Text statistics and the hallucination/duplication filters
(ocr_pages.py lines 48-101).
-/
/-- Sentence-ending punctuation, the class `[.!?]` of
`detect_llm_duplication` and `filter_text_lines`. -/
def isSentPunct (c : Char) : Bool := c = '.' || c = '!' || c = '?'

/-- Python word characters (`\w` restricted to ASCII): letters, digits and
underscore; used for the `\b` boundaries of `\b[a-zA-Z]{4,}\b`. -/
def isWordChar (c : Char) : Bool := c.isAlphanum || c = '_'

/-- `sum(ch.isalpha() for ch in s)` (ASCII model). -/
def alphaCount (l : List Char) : Nat := (l.filter Char.isAlpha).length

/-- `sum(ch.isalnum() for ch in s)` (ASCII model). -/
def alnumCount (l : List Char) : Nat := (l.filter Char.isAlphanum).length

/-- `sum((not ch.isalnum()) and (not ch.isspace()) for ch in s)`. -/
def symCount (l : List Char) : Nat :=
  (l.filter (fun c => !c.isAlphanum && !isPyWS c)).length

/-- `any(ch.isupper() for ch in s)` (ASCII model). -/
def hasCapital (l : List Char) : Bool := l.any Char.isUpper

/-- Maximal runs of characters satisfying `p`, in order; `acc` holds the
current run reversed. -/
def runsAux (p : Char → Bool) : List Char → List Char → List (List Char)
  | acc, [] => if acc.isEmpty then [] else [acc.reverse]
  | acc, c :: rest =>
    if p c then runsAux p (c :: acc) rest
    else if acc.isEmpty then runsAux p [] rest
    else acc.reverse :: runsAux p [] rest

/-- `re.findall(r"[A-Za-z]{3,}", s)`: the maximal ASCII-letter runs of
length at least 3 (greedy, leftmost, non-overlapping). -/
def words3 (l : List Char) : List (List Char) :=
  (runsAux Char.isAlpha [] l).filter (fun w => 3 ≤ w.length)

/-- `[w for w in words3 if len(w) >= 4]`. -/
def words4 (l : List Char) : List (List Char) :=
  (words3 l).filter (fun w => 4 ≤ w.length)

/-- Maximal runs of one repeated character: `eqRunsAux c n rest` scans
`rest` with a current run of `n` copies of `c`. -/
def eqRunsAux : Char → Nat → List Char → List (Char × Nat)
  | c, n, [] => [(c, n)]
  | c, n, d :: rest =>
    if d = c then eqRunsAux c (n + 1) rest
    else (c, n) :: eqRunsAux d 1 rest

/-- All maximal runs of equal characters of `l`, with their lengths. -/
def eqRuns : List Char → List (Char × Nat)
  | [] => []
  | c :: rest => eqRunsAux c 1 rest

/-- Embedding of `has_excessive_repetition` (ocr_pages.py lines 48-66).
`re.findall(r'([a-zA-Z])\1{3,}', text)` produces exactly one match per
maximal run of a repeated letter of length at least 4 (the greedy match
swallows the whole run), so `len(matches) >= 3` counts such runs; the
second pattern searches for a run of length at least 7. -/
def has_excessive_repetition (l : List Char) : Bool :=
  let letterRuns := (eqRuns l).filter (fun p => p.1.isAlpha)
  3 ≤ (letterRuns.filter (fun p => 4 ≤ p.2)).length ||
    letterRuns.any (fun p => 7 ≤ p.2)

/-- Word set of `re.findall(r'\b[a-zA-Z]{4,}\b', s)` collected into a Python
set: a maximal word-character run matches exactly when it consists solely of
letters and has length at least 4 (a run containing or adjacent to digits or
underscores fails the character class or the `\b` boundary); the set is
modelled by `dedup`. -/
def words4set (l : List Char) : List (List Char) :=
  ((runsAux isWordChar [] l).filter
      (fun w => w.all Char.isAlpha && 4 ≤ w.length)).dedup

/-- Cardinality of the intersection of two deduplicated word lists. -/
def interCount (a b : List (List Char)) : Nat :=
  (a.filter (fun w => decide (w ∈ b))).length

/-- The similarity test of `detect_llm_duplication` (lines 90-95): both word
sets nonempty and `len(curr ∩ prev) / max(len(curr), len(prev)) > 0.5`, in
exact integer form.  `prev` is a retained sentence (with its delimiter), `s`
the current sentence. -/
def overlapGT (prev s : List Char) : Bool :=
  let wc := words4set (s.map Char.toLower)
  let wp := words4set (prev.map Char.toLower)
  !wc.isEmpty && !wp.isEmpty &&
    decide (2 * interCount wc wp > max wc.length wp.length)

/-- Scanner for `re.split(r'([.!?]\s+)', text)`: pieces alternate with the
captured delimiters.  `inDelim` records whether the whitespace tail of a
delimiter is being consumed; `acc` holds the current piece or delimiter
reversed.  A delimiter starts at a `[.!?]` character directly followed by
whitespace (leftmost match) and greedily takes the whole whitespace run. -/
def sentScan : Bool → List Char → List Char → List (List Char)
  | inDelim, acc, [] => if inDelim then [acc.reverse, []] else [acc.reverse]
  | inDelim, acc, [c] =>
    if inDelim then
      if isPyWS c then [(c :: acc).reverse, []] else [acc.reverse, [c]]
    else [(c :: acc).reverse]
  | inDelim, acc, c :: d :: rest =>
    if inDelim then
      if isPyWS c then sentScan true (c :: acc) (d :: rest)
      else if isSentPunct c && isPyWS d then
        acc.reverse :: [] :: sentScan true [d, c] rest
      else acc.reverse :: sentScan false [c] (d :: rest)
    else
      if isSentPunct c && isPyWS d then acc.reverse :: sentScan true [d, c] rest
      else sentScan false (c :: acc) (d :: rest)

/-- `re.split(r'([.!?]\s+)', text)`: sentence pieces with their delimiters. -/
def splitSent (l : List Char) : List (List Char) := sentScan false [] l

/-- Rebuild (sentence, delimiter) pairs from the alternating split list,
as the loop `for i in range(0, len(sentences), 2)` with
`delimiter = sentences[i+1] if i+1 < len(sentences) else ""` (lines 82-84). -/
def pairUp : List (List Char) → List (List Char × List Char)
  | [] => []
  | [s] => [(s, [])]
  | s :: d :: rest => (s, d) :: pairUp rest

/-- The retention walk of `detect_llm_duplication` (lines 86-99): each
sentence is compared against every previously retained sentence; at the
first similar pair the walk stops and the retained list is returned,
otherwise the sentence and its delimiter are appended. -/
def dupWalk : List (List Char × List Char) → List (List Char) → List (List Char)
  | [], recon => recon
  | (s, d) :: rest, recon =>
    if recon.any (fun prev => overlapGT prev s) then recon
    else dupWalk rest (recon ++ [s ++ d])

/-- Embedding of `detect_llm_duplication` (ocr_pages.py lines 69-101). -/
def detect_llm_duplication (s : String) : String :=
  let sentences := splitSent s.data
  if sentences.length < 3 then s
  else ⟨pyStrip (dupWalk (pairUp sentences) []).flatten⟩

/-!
Line quality filter `filter_text_lines` (ocr_pages.py lines 105-197).
-/
/-- Python `str.split()` with no argument: maximal non-whitespace tokens,
empty strings discarded. -/
def splitWS (l : List Char) : List (List Char) :=
  runsAux (fun c => !isPyWS c) [] l

/-- Line-break characters of Python `str.splitlines()` (besides the
two-character `\r\n`, which is handled separately). -/
def isLineBreak (c : Char) : Bool :=
  c = '\n' || c = '\r' || c = '\x0b' || c = '\x0c' || c = '\x1c' ||
    c = '\x1d' || c = '\x1e' || c = '\x85' || c = ' ' || c = ' '

/-- Python `str.splitlines()`: split at line-break characters (`\r\n`
counting as one break), with no trailing empty line. -/
def splitLinesAux : List Char → List Char → List (List Char)
  | acc, [] => if acc.isEmpty then [] else [acc.reverse]
  | acc, [c] => if isLineBreak c then [acc.reverse] else [(c :: acc).reverse]
  | acc, c :: d :: rest =>
    if c = '\r' && d = '\n' then acc.reverse :: splitLinesAux [] rest
    else if isLineBreak c then acc.reverse :: splitLinesAux [] (d :: rest)
    else splitLinesAux (c :: acc) (d :: rest)

/-- The strict word-shape acceptance (lines 144-145): at least two words of
length ≥ 4, or at least three words of length ≥ 3. -/
def strictOk (ln : List Char) : Bool :=
  2 ≤ (words4 ln).length || 3 ≤ (words3 ln).length

/-- The permissive short-caption acceptance (lines 148-155): at least one
word of length ≥ 3, total length in `[8, 50]`, an uppercase letter, and
symbol ratio below 0.20 (`5 * sym < max 1 total`). -/
def isValidShort (ln : List Char) : Bool :=
  1 ≤ (words3 ln).length && 8 ≤ ln.length && ln.length ≤ 50 &&
    hasCapital ln && decide (5 * symCount ln < max 1 ln.length)

/-- The short-continuation shape test (line 169): at most two words of
length ≥ 3, total length ≤ 24, letter ratio at least 0.50
(`2 * alpha ≥ max 1 total`). -/
def isShortCont (ln : List Char) : Bool :=
  (words3 ln).length ≤ 2 && ln.length ≤ 24 &&
    decide (2 * alphaCount ln ≥ max 1 ln.length)

/-- The terminal-punctuation test on the previous kept line (lines 164-166):
`prev_last in ".!?"` where `prev_last` is the last character of the
right-stripped previous line, and the empty string (Python's
`"" in ".!?"`) counts as terminal. -/
def prevTerminal (prev : List Char) : Bool :=
  match prev.getLast? with
  | none => true
  | some c => isSentPunct c

/-- The preposition cues of the recovery case (lines 180-182). -/
def introCues : List (List Char) :=
  [("near" : String).data, ("from" : String).data, ("in" : String).data,
   ("at" : String).data, ("to" : String).data, ("of" : String).data,
   ("by" : String).data, ("with" : String).data]

/-- `any(tok in prev_lc.split()[-4:] for tok in [...])` (line 180): one of
the cues appears verbatim among the last four whitespace-split words of the
lowercased previous line. -/
def looksLikeIntro (prev : List Char) : Bool :=
  let lastWords := (splitWS (prev.map Char.toLower)).reverse.take 4
  introCues.any (fun tok => decide (tok ∈ lastWords))

/-- `prev.endswith("...")` (line 185). -/
def endsEllipsis (prev : List Char) : Bool :=
  ("..." : String).data.isSuffixOf prev

/-- `ln[:1].isupper()` (line 188), false on the empty string. -/
def startsCap (ln : List Char) : Bool :=
  match ln.head? with
  | some c => c.isUpper
  | none => false

/-- One iteration of the line loop of `filter_text_lines`
(ocr_pages.py lines 113-195), taking the kept list so far and the next
already-stripped line.  `kept.getLast?.getD []` is Python's `kept[-1]`,
guarded by the emptiness test. -/
def lineStep (kept : List (List Char)) (ln : List Char) : List (List Char) :=
  if ln.isEmpty then kept
  else if has_excessive_repetition ln then kept
  else if alphaCount ln < 4 then kept
  else if 4 * alphaCount ln < max 1 ln.length then kept
  else if 100 * symCount ln > 35 * max 1 ln.length then kept
  else if (words3 ln).isEmpty then kept
  else if strictOk ln || isValidShort ln then kept ++ [ln]
  else if kept.isEmpty then kept
  else
    let prev := pyRStrip (kept.getLast?.getD [])
    if isShortCont ln then
      if !prevTerminal prev then kept ++ [ln]
      else if looksLikeIntro prev || endsEllipsis prev || startsCap ln then
        kept ++ [ln]
      else kept
    else kept

/-- Embedding of `filter_text_lines` (ocr_pages.py lines 105-197):
duplication cleanup, per-line filtering of the stripped lines, rejoin with
newlines and strip. -/
def filter_text_lines (s : String) : String :=
  let t := detect_llm_duplication s
  let lines := (splitLinesAux [] t.data).map pyStrip
  ⟨pyStrip (List.intercalate ['\n'] (lines.foldl lineStep []))⟩

/-!
Block quality filter and page assembly inside `process_album`
(ocr_pages.py lines 505-664).  The recognizer is a black box, so a crop
carries its recognized raw text as data.
-/
/-- A candidate crop: its rectangle `(x, y, w, h)` from
`find_candidate_boxes` and the raw text the recognizer returned for it. -/
structure CropIn where
  x : Nat
  y : Nat
  w : Nat
  h : Nat
  text : String
deriving DecidableEq, Repr

/-- An accepted text block (lines 640-645): bbox `[x, y, x+w, y+h]` and the
line-filtered text. -/
structure BlockRec where
  x0 : Nat
  y0 : Nat
  x1 : Nat
  y1 : Nat
  text : String
deriving DecidableEq, Repr

/-- `is_tall` (line 551): `h/ih > 0.22 and w/iw > 0.40`, in exact integer
form (`100*h > 22*ih` and `100*w > 40*iw`). -/
def isTall (iw ih w h : Nat) : Bool :=
  decide (100 * h > 22 * ih) && decide (100 * w > 40 * iw)

/-- The tall-region density test (lines 586-592): the region is rejected
when `tall_alpha < 80 or tall_alpha / max(1, len(text)) < 0.30`; this is
the passing condition. -/
def tallTextOk (t : String) : Bool :=
  !(decide (alphaCount t.data < 80) ||
    decide (10 * alphaCount t.data < 3 * max 1 t.length))

/-- `is_valid_short_block` (lines 569-578): length in `[8, 50]`, at least
one word of length ≥ 3, an uppercase letter, punctuation ratio below 0.25
(`4 * sym < max 1 total`). -/
def isValidShortBlock (t : String) : Bool :=
  8 ≤ t.length && t.length ≤ 50 && 1 ≤ (words3 t.data).length &&
    hasCapital t.data && decide (4 * symCount t.data < max 1 t.length)

/-- `long_words` (lines 621-622): whitespace-split words whose
letters-only length is at least 3. -/
def longWordsCount (t : String) : Nat :=
  ((splitWS t.data).filter
      (fun w => 3 ≤ (w.filter Char.isAlpha).length)).length

/-- The noisy-block test on very short lines (lines 629-634): the non-blank
stripped lines exist and more than 60% of them have length ≤ 2
(`5 * short > 3 * len`). -/
def tooManyShortLines (t : String) : Bool :=
  let lines := ((splitLinesAux [] t.data).map pyStrip).filter
    (fun ln => !ln.isEmpty)
  !lines.isEmpty &&
    decide (5 * (lines.filter (fun ln => ln.length ≤ 2)).length >
      3 * lines.length)

/-- The per-crop decision chain of `process_album` (ocr_pages.py lines
531-645), from the geometry short-circuit through all text checks; `none`
is a `continue`, `some` the appended block.  The area test
`(w*h)/(iw*ih) > 0.14` is `100*w*h > 14*iw*ih`, the ratio tests
`alpha/total < 0.12` are `100*alpha < 12*total` with
`total = max(1, len(text))`; `text` is the line-filtered recognized text.
-/
def processCropText (iw ih : Nat) (c : CropIn) (text : String) :
    Option BlockRec :=
  if 100 * (c.w * c.h) > 14 * (iw * ih) then none
  else if text = "" then none
  else if !isValidShortBlock text && (words4 text.data).length < 2 &&
      (words3 text.data).length < 4 then none
  else if isTall iw ih c.w c.h && !tallTextOk text then none
  else if text.length < 4 then none
  else if alphaCount text.data < 4 then none
  else if 100 * alphaCount text.data < 12 * max 1 text.length then none
  else if 100 * alnumCount text.data < 12 * max 1 text.length then none
  else if longWordsCount text < 1 && 18 ≤ alphaCount text.data then none
  else if tooManyShortLines text then none
  else some ⟨c.x, c.y, c.x + c.w, c.y + c.h, text⟩

/-- The per-crop decision on the line-filtered recognized text
(`text = filter_text_lines(text)`, line 559). -/
def processCrop (iw ih : Nat) (c : CropIn) : Option BlockRec :=
  processCropText iw ih c (filter_text_lines c.text)

/-- A page input for `process_album`: filename, Hugo-relative path, image
dimensions, and the crops with their recognized text; `crops = none` models
an unreadable image (`cv2.imread` returned `None`, line 516). -/
structure PageIn where
  name : String
  path : String
  width : Nat
  height : Nat
  crops : Option (List CropIn)
deriving Repr

/-- A page record (lines 652-659). -/
structure PageRec where
  filename : String
  path : String
  blocks : List BlockRec
  full_text : String
  captions : List String
  caption_text : String
deriving DecidableEq, Repr

/-- The block sort key of line 647: ascending `(bbox[1], bbox[0])`, i.e.
`(y0, x0)` lexicographically. -/
def blockLE (a b : BlockRec) : Prop :=
  a.y0 < b.y0 ∨ (a.y0 = b.y0 ∧ a.x0 ≤ b.x0)

instance : DecidableRel blockLE := fun a b => by
  unfold blockLE
  infer_instance

/-- `blocks.sort(key=lambda b: (b["bbox"][1], b["bbox"][0]))` (line 647),
modelled by insertion sort on the same key order. -/
def sortBlocks (bs : List BlockRec) : List BlockRec :=
  List.insertionSort blockLE bs

/-- Assembly of one page record (lines 640-659) from the crops that
survive `processCrop`. -/
def makePageRecord (p : PageIn) (cs : List CropIn) : PageRec :=
  let blocks := sortBlocks (cs.filterMap (processCrop p.width p.height))
  let captions := blocks.map BlockRec.text
  { filename := p.name
    path := p.path
    blocks := blocks
    full_text := clean_text (String.intercalate "\n\n" (blocks.map BlockRec.text))
    captions := captions
    caption_text := clean_text (String.intercalate "\n\n" captions) }

/-- Embedding of the page loop of `process_album` (ocr_pages.py lines
514-664): unreadable images are skipped; every readable image appends
exactly one record, unconditionally. -/
def process_album (pages : List PageIn) : List PageRec :=
  pages.filterMap (fun p => p.crops.map (makePageRecord p))

/-- Text used to exercise the tall-region acceptance path: one clean caption
line with 89 letters out of 101 characters. -/
def tallWitnessText : String :=
  "Grandmother Landreth visiting the covered bridges near Lancaster County during October nineteen fifty"

/-!
Search-index page entries (ocr_pages.py lines 750-767 and
rebuild_search_index.py lines 128-148; both builders sort the album's pages
by filename and enumerate them from zero).
-/
/-- A page search entry with the fields both builders write. -/
structure PageEntry where
  album : String
  page_filename : String
  page_path : String
  image_index : Nat
  captions : List String
  searchable_text : String
deriving DecidableEq, Repr

/-- The sort key of `sorted(album_records, key=lambda p: p.get("filename", ""))`
(ocr_pages.py line 752, rebuild_search_index.py line 130). -/
def recLE (a b : PageRec) : Prop := a.filename ≤ b.filename

instance : DecidableRel recLE := fun a b => by
  unfold recLE
  infer_instance

/-- Python's stable `sorted` by filename, modelled by insertion sort on the
same key order. -/
def sortPagesByFilename (records : List PageRec) : List PageRec :=
  List.insertionSort recLE records

/-- The page entries appended for one album: sorted pages enumerated from
zero, `image_index = idx` (ocr_pages.py lines 755-767,
rebuild_search_index.py lines 133-148); `searchable_text` is
`" ".join(captions) + " " + filename`. -/
def pageEntries (album : String) (records : List PageRec) : List PageEntry :=
  (sortPagesByFilename records).enum.map (fun ie =>
    { album := album
      page_filename := ie.2.filename
      page_path := ie.2.path
      image_index := ie.1
      captions := ie.2.captions
      searchable_text :=
        String.intercalate " " ie.2.captions ++ " " ++ ie.2.filename })

-- sanity examples (concrete behaviour matches the Python function)
example : clean_text "  a\x0cb  " = "a b" := by decide

example : clean_text "a\r\n  b" = "a\n\nb" := by decide

example : clean_text "a\n\n\n\nb" = "a\n\nb" := by decide

example : clean_text "a \t b" = "a b" := by decide

lemma noPairR_tail {R a l} (h : noPairR R (a :: l) = true) : noPairR R l = true := by
  cases l with
  | nil => rfl
  | cons b t => simp only [noPairR, Bool.and_eq_true] at h; exact h.2

lemma noPairR_head {R a l} (h : noPairR R (a :: l) = true) :
    ∀ b, l.head? = some b → R a b = false := by
  intro b hb
  cases l with
  | nil => simp at hb
  | cons c t =>
    simp only [List.head?_cons, Option.some.injEq] at hb
    subst hb
    simp only [noPairR, Bool.and_eq_true, Bool.not_eq_true'] at h
    exact h.1

lemma noPairR_cons {R a l} (h1 : ∀ b, l.head? = some b → R a b = false)
    (h2 : noPairR R l = true) : noPairR R (a :: l) = true := by
  cases l with
  | nil => rfl
  | cons b t =>
    simp only [noPairR, Bool.and_eq_true, Bool.not_eq_true']
    exact ⟨h1 b rfl, h2⟩

lemma noPairR_append_left {R} {l t : List Char} (h : noPairR R (l ++ t) = true) :
    noPairR R l = true := by
  induction l with
  | nil => rfl
  | cons a l ih =>
    cases l with
    | nil => rfl
    | cons b l2 =>
      simp only [List.cons_append, noPairR, Bool.and_eq_true] at h ⊢
      exact ⟨h.1, ih h.2⟩

lemma noPairR_append_right {R} {t l : List Char} (h : noPairR R (t ++ l) = true) :
    noPairR R l = true := by
  induction t with
  | nil => exact h
  | cons a t ih => exact ih (noPairR_tail h)

lemma noNNN_tail {a : Char} {l} (h : noNNN (a :: l) = true) : noNNN l = true := by
  match l with
  | [] => rfl
  | [b] => rfl
  | b :: c :: t =>
    simp only [noNNN, Bool.and_eq_true] at h
    exact h.2

lemma noNNN_window {a b c : Char} {t} (h : noNNN (a :: b :: c :: t) = true) :
    ¬(a = '\n' ∧ b = '\n' ∧ c = '\n') := by
  simp only [noNNN, Bool.and_eq_true, Bool.not_eq_true'] at h
  intro ⟨ha, hb, hc⟩
  subst ha; subst hb; subst hc
  simp at h

lemma noNNN_cons {a : Char} {l}
    (h1 : ∀ b c t, l = b :: c :: t → ¬(a = '\n' ∧ b = '\n' ∧ c = '\n'))
    (h2 : noNNN l = true) : noNNN (a :: l) = true := by
  match l with
  | [] => rfl
  | [b] => rfl
  | b :: c :: t =>
    simp only [noNNN, Bool.and_eq_true]
    refine ⟨?_, h2⟩
    have := h1 b c t rfl
    simp only [Bool.not_eq_true']
    by_contra hx
    simp only [Bool.not_eq_false, Bool.and_eq_true, decide_eq_true_eq] at hx
    exact this ⟨hx.1.1, hx.1.2, hx.2⟩

lemma noNNN_append_left {l t : List Char} (h : noNNN (l ++ t) = true) :
    noNNN l = true := by
  induction l with
  | nil => rfl
  | cons a l ih =>
    match l, ih with
    | [], _ => rfl
    | [b], _ => rfl
    | b :: c :: l2, ih =>
      simp only [List.cons_append, noNNN, Bool.and_eq_true] at h ⊢
      exact ⟨h.1, ih h.2⟩

lemma noNNN_append_right {t l : List Char} (h : noNNN (t ++ l) = true) :
    noNNN l = true := by
  induction t with
  | nil => exact h
  | cons a t ih => exact ih (noNNN_tail h)

lemma pyRStrip_cons (c : Char) (rest : List Char) :
    pyRStrip (c :: rest) =
      match pyRStrip rest with
      | [] => if isPyWS c then [] else [c]
      | r => c :: r := rfl

lemma exists_append_pyLStrip (l : List Char) : ∃ t, t ++ pyLStrip l = l := by
  unfold pyLStrip
  induction l with
  | nil => exact ⟨[], rfl⟩
  | cons c rest ih =>
    by_cases hc : isPyWS c
    · obtain ⟨t, ht⟩ := ih
      exact ⟨c :: t, by simp [List.dropWhile_cons, hc, ht]⟩
    · exact ⟨[], by simp [List.dropWhile_cons, hc]⟩

lemma pyLStrip_head (l : List Char) :
    ∀ x, (pyLStrip l).head? = some x → isPyWS x = false := by
  unfold pyLStrip
  induction l with
  | nil => intro x hx; simp at hx
  | cons c rest ih =>
    intro x hx
    by_cases hc : isPyWS c
    · exact ih x (by simpa [List.dropWhile_cons, hc] using hx)
    · simp [List.dropWhile_cons, hc] at hx
      subst hx
      simpa using hc

lemma pyRStrip_branch (c : Char) (rest : List Char) :
    pyRStrip (c :: rest) = [] ∨ pyRStrip (c :: rest) = c :: pyRStrip rest := by
  rw [pyRStrip_cons]
  cases h : pyRStrip rest with
  | nil =>
    by_cases hc : isPyWS c
    · left
      show (if isPyWS c then [] else [c]) = []
      simp [hc]
    · right
      show (if isPyWS c then [] else [c]) = c :: []
      simp [hc]
  | cons d r => right; rfl

lemma exists_pyRStrip_append (l : List Char) : ∃ t, pyRStrip l ++ t = l := by
  induction l with
  | nil => exact ⟨[], rfl⟩
  | cons c rest ih =>
    rcases pyRStrip_branch c rest with h | h
    · exact ⟨c :: rest, by simp [h]⟩
    · obtain ⟨t, ht⟩ := ih
      exact ⟨t, by rw [h, List.cons_append, ht]⟩

lemma pyRStrip_head (l : List Char) :
    (pyRStrip l).head? = none ∨ (pyRStrip l).head? = l.head? := by
  cases l with
  | nil => left; rfl
  | cons c rest =>
    rcases pyRStrip_branch c rest with h | h
    · left; simp [h]
    · right; simp [h]

lemma pyRStrip_last (l : List Char) :
    ∀ x, (pyRStrip l).getLast? = some x → isPyWS x = false := by
  induction l with
  | nil => intro x hx; simp [pyRStrip] at hx
  | cons c rest ih =>
    intro x hx
    rw [pyRStrip_cons] at hx
    revert hx
    cases h : pyRStrip rest with
    | nil =>
      by_cases hc : isPyWS c
      · show (if isPyWS c then ([] : List Char) else [c]).getLast? = some x →
          isPyWS x = false
        simp [hc]
      · show (if isPyWS c then ([] : List Char) else [c]).getLast? = some x →
          isPyWS x = false
        intro hx
        simp [hc] at hx
        subst hx
        simpa using hc
    | cons d r =>
      intro hx
      rw [List.getLast?_cons_cons] at hx
      exact ih x (by rw [h]; exact hx)

lemma pyRStrip_id (l : List Char)
    (h : ∀ x, l.getLast? = some x → isPyWS x = false) : pyRStrip l = l := by
  induction l with
  | nil => rfl
  | cons c rest ih =>
    cases rest with
    | nil =>
      have hc : isPyWS c = false := h c (by simp)
      rw [pyRStrip_cons]
      show (match pyRStrip [] with
            | [] => if isPyWS c then [] else [c]
            | r => c :: r) = [c]
      simp [pyRStrip, hc]
    | cons d r =>
      have hrest : pyRStrip (d :: r) = d :: r := by
        apply ih
        intro x hx
        exact h x (by rw [List.getLast?_cons_cons]; exact hx)
      rw [pyRStrip_cons, hrest]

lemma pyStrip_head (l : List Char) :
    ∀ x, (pyStrip l).head? = some x → isPyWS x = false := by
  intro x hx
  unfold pyStrip at hx
  rcases pyRStrip_head (pyLStrip l) with h | h
  · rw [h] at hx; cases hx
  · rw [h] at hx
    exact pyLStrip_head l x hx

lemma pyStrip_last (l : List Char) :
    ∀ x, (pyStrip l).getLast? = some x → isPyWS x = false :=
  fun x hx => pyRStrip_last (pyLStrip l) x hx

lemma pyStrip_id (l : List Char)
    (hh : ∀ x, l.head? = some x → isPyWS x = false)
    (hl : ∀ x, l.getLast? = some x → isPyWS x = false) : pyStrip l = l := by
  have h1 : pyLStrip l = l := by
    cases l with
    | nil => rfl
    | cons c rest =>
      have := hh c rfl
      simp [pyLStrip, List.dropWhile_cons, this]
  unfold pyStrip
  rw [h1]
  exact pyRStrip_id l hl

lemma noPairR_pyStrip {R} {l : List Char} (h : noPairR R l = true) :
    noPairR R (pyStrip l) = true := by
  obtain ⟨t, ht⟩ := exists_append_pyLStrip l
  have hL : noPairR R (pyLStrip l) = true :=
    noPairR_append_right (t := t) (by rw [ht]; exact h)
  obtain ⟨t2, ht2⟩ := exists_pyRStrip_append (pyLStrip l)
  unfold pyStrip
  exact noPairR_append_left (t := t2) (by rw [ht2]; exact hL)

lemma noNNN_pyStrip {l : List Char} (h : noNNN l = true) :
    noNNN (pyStrip l) = true := by
  obtain ⟨t, ht⟩ := exists_append_pyLStrip l
  have hL : noNNN (pyLStrip l) = true :=
    noNNN_append_right (t := t) (by rw [ht]; exact h)
  obtain ⟨t2, ht2⟩ := exists_pyRStrip_append (pyLStrip l)
  unfold pyStrip
  exact noNNN_append_left (t := t2) (by rw [ht2]; exact hL)

lemma mem_pyStrip {x : Char} {l : List Char} (h : x ∈ pyStrip l) : x ∈ l := by
  unfold pyStrip at h
  obtain ⟨t2, ht2⟩ := exists_pyRStrip_append (pyLStrip l)
  obtain ⟨t, ht⟩ := exists_append_pyLStrip l
  have h1 : x ∈ pyLStrip l := by
    rw [← ht2]; exact List.mem_append_left _ h
  rw [← ht]
  exact List.mem_append_right _ h1

lemma chtAux_cons (s : Bool) (c : Char) (rest : List Char) :
    chtAux s (c :: rest) =
      if isHT c then
        if s then chtAux true rest else ' ' :: chtAux true rest
      else c :: chtAux false rest := rfl

lemma chtAux_cons_ht_t {c : Char} (rest : List Char) (hc : isHT c = true) :
    chtAux true (c :: rest) = chtAux true rest := by
  rw [chtAux_cons, if_pos hc, if_pos rfl]

lemma chtAux_cons_ht_f {c : Char} (rest : List Char) (hc : isHT c = true) :
    chtAux false (c :: rest) = ' ' :: chtAux true rest := by
  rw [chtAux_cons, if_pos hc, if_neg Bool.false_ne_true]

lemma chtAux_cons_not_ht {c : Char} (s : Bool) (rest : List Char)
    (hc : ¬ isHT c = true) : chtAux s (c :: rest) = c :: chtAux false rest := by
  rw [chtAux_cons, if_neg hc]

lemma chtAux_true_head (l : List Char) :
    ∀ x, (chtAux true l).head? = some x → isHT x = false := by
  induction l with
  | nil => intro x hx; cases hx
  | cons c rest ih =>
    intro x hx
    by_cases hc : isHT c = true
    · rw [chtAux_cons_ht_t rest hc] at hx
      exact ih x hx
    · rw [chtAux_cons_not_ht true rest hc, List.head?_cons,
        Option.some.injEq] at hx
      subst hx
      simpa using hc

lemma tab_not_mem_chtAux (s : Bool) (l : List Char) : '\t' ∉ chtAux s l := by
  induction l generalizing s with
  | nil => simp [chtAux]
  | cons c rest ih =>
    by_cases hc : isHT c = true
    · cases s with
      | true => rw [chtAux_cons_ht_t rest hc]; exact ih true
      | false =>
        rw [chtAux_cons_ht_f rest hc]
        simp only [List.mem_cons, not_or]
        exact ⟨by decide, ih true⟩
    · rw [chtAux_cons_not_ht s rest hc]
      simp only [List.mem_cons, not_or]
      refine ⟨?_, ih false⟩
      intro hx
      exact hc (by rw [← hx]; decide)

lemma mem_chtAux {x : Char} {s : Bool} {l : List Char}
    (h : x ∈ chtAux s l) : x = ' ' ∨ x ∈ l := by
  induction l generalizing s with
  | nil => cases h
  | cons c rest ih =>
    by_cases hc : isHT c = true
    · cases s with
      | true =>
        rw [chtAux_cons_ht_t rest hc] at h
        rcases ih h with h1 | h1
        · exact Or.inl h1
        · exact Or.inr (List.mem_cons_of_mem _ h1)
      | false =>
        rw [chtAux_cons_ht_f rest hc] at h
        rcases List.mem_cons.mp h with h1 | h1
        · exact Or.inl h1
        · rcases ih h1 with h2 | h2
          · exact Or.inl h2
          · exact Or.inr (List.mem_cons_of_mem _ h2)
    · rw [chtAux_cons_not_ht s rest hc] at h
      rcases List.mem_cons.mp h with h1 | h1
      · exact Or.inr (by rw [h1]; exact List.mem_cons_self c rest)
      · rcases ih h1 with h2 | h2
        · exact Or.inl h2
        · exact Or.inr (List.mem_cons_of_mem _ h2)

lemma noPairR_adjHT_chtAux (s : Bool) (l : List Char) :
    noPairR adjHT (chtAux s l) = true := by
  induction l generalizing s with
  | nil => rfl
  | cons c rest ih =>
    by_cases hc : isHT c = true
    · cases s with
      | true => rw [chtAux_cons_ht_t rest hc]; exact ih true
      | false =>
        rw [chtAux_cons_ht_f rest hc]
        refine noPairR_cons ?_ (ih true)
        intro b hb
        have hbt := chtAux_true_head rest b hb
        simp [adjHT, hbt]
    · rw [chtAux_cons_not_ht s rest hc]
      refine noPairR_cons ?_ (ih false)
      intro b hb
      simp only [adjHT]
      simp [Bool.eq_false_iff.mpr hc]

lemma chtAux_true_eq (l : List Char)
    (h : ∀ x, l.head? = some x → isHT x = false) :
    chtAux true l = chtAux false l := by
  cases l with
  | nil => rfl
  | cons c rest =>
    have hc : ¬ isHT c = true := by simp [h c rfl]
    rw [chtAux_cons_not_ht true rest hc, chtAux_cons_not_ht false rest hc]

lemma collapseHT_id (l : List Char) (h1 : '\t' ∉ l)
    (h2 : noPairR adjHT l = true) : collapseHT l = l := by
  unfold collapseHT
  induction l with
  | nil => rfl
  | cons c rest ih =>
    by_cases hc : isHT c = true
    · have hsp : c = ' ' := by
        rcases (by simpa [isHT] using hc : c = ' ' ∨ c = '\t') with h | h
        · exact h
        · exact absurd (h ▸ List.mem_cons_self c rest) (fun hm => h1 hm)
      have hhd : ∀ x, rest.head? = some x → isHT x = false := by
        intro x hx
        have := noPairR_head h2 x hx
        simp only [adjHT, hc, Bool.true_and] at this
        exact this
      rw [chtAux_cons_ht_f rest hc, chtAux_true_eq rest hhd,
        ih (fun hm => h1 (List.mem_cons_of_mem _ hm)) (noPairR_tail h2), hsp]
    · rw [chtAux_cons_not_ht false rest hc,
        ih (fun hm => h1 (List.mem_cons_of_mem _ hm)) (noPairR_tail h2)]

lemma sanlAux_cons (s : Bool) (c : Char) (rest : List Char) :
    sanlAux s (c :: rest) =
      if s && isHT c then sanlAux true rest
      else if c = '\n' then '\n' :: sanlAux true rest
      else c :: sanlAux false rest := rfl

lemma sanlAux_cons_drop {c : Char} (rest : List Char) (hc : isHT c = true) :
    sanlAux true (c :: rest) = sanlAux true rest := by
  rw [sanlAux_cons, if_pos (by simp [hc])]

lemma sanlAux_cons_nl {c : Char} (s : Bool) (rest : List Char)
    (hnd : ¬ (s && isHT c) = true) (hc : c = '\n') :
    sanlAux s (c :: rest) = '\n' :: sanlAux true rest := by
  rw [sanlAux_cons, if_neg hnd, if_pos hc]

lemma sanlAux_cons_keep {c : Char} (s : Bool) (rest : List Char)
    (hnd : ¬ (s && isHT c) = true) (hc : ¬ c = '\n') :
    sanlAux s (c :: rest) = c :: sanlAux false rest := by
  rw [sanlAux_cons, if_neg hnd, if_neg hc]

lemma sanlAux_true_head (l : List Char) :
    ∀ x, (sanlAux true l).head? = some x → isHT x = false := by
  induction l with
  | nil => intro x hx; cases hx
  | cons c rest ih =>
    intro x hx
    by_cases hc : isHT c = true
    · rw [sanlAux_cons_drop rest hc] at hx
      exact ih x hx
    · by_cases hn : c = '\n'
      · rw [sanlAux_cons_nl true rest (by simp [hc]) hn, List.head?_cons,
          Option.some.injEq] at hx
        subst hx
        decide
      · rw [sanlAux_cons_keep true rest (by simp [hc]) hn, List.head?_cons,
          Option.some.injEq] at hx
        subst hx
        simpa using hc

lemma sanlAux_false_head (l : List Char) :
    (sanlAux false l).head? = l.head? := by
  cases l with
  | nil => rfl
  | cons c rest =>
    by_cases hn : c = '\n'
    · rw [sanlAux_cons_nl false rest (by simp) hn, hn]
      rfl
    · rw [sanlAux_cons_keep false rest (by simp) hn]
      rfl

lemma mem_sanlAux {x : Char} {s : Bool} {l : List Char}
    (h : x ∈ sanlAux s l) : x ∈ l := by
  induction l generalizing s with
  | nil => cases h
  | cons c rest ih =>
    by_cases hd : (s && isHT c) = true
    · rw [sanlAux_cons, if_pos hd] at h
      exact List.mem_cons_of_mem _ (ih h)
    · by_cases hn : c = '\n'
      · rw [sanlAux_cons_nl s rest hd hn] at h
        rcases List.mem_cons.mp h with h1 | h1
        · rw [h1, hn]; exact List.mem_cons_self _ _
        · exact List.mem_cons_of_mem _ (ih h1)
      · rw [sanlAux_cons_keep s rest hd hn] at h
        rcases List.mem_cons.mp h with h1 | h1
        · rw [h1]; exact List.mem_cons_self c rest
        · exact List.mem_cons_of_mem _ (ih h1)

lemma noPairR_adjNH_sanlAux (s : Bool) (l : List Char) :
    noPairR adjNH (sanlAux s l) = true := by
  induction l generalizing s with
  | nil => rfl
  | cons c rest ih =>
    by_cases hd : (s && isHT c) = true
    · rw [sanlAux_cons, if_pos hd]
      exact ih true
    · by_cases hn : c = '\n'
      · rw [sanlAux_cons_nl s rest hd hn]
        refine noPairR_cons ?_ (ih true)
        intro b hb
        have := sanlAux_true_head rest b hb
        simp [adjNH, this]
      · rw [sanlAux_cons_keep s rest hd hn]
        refine noPairR_cons ?_ (ih false)
        intro b hb
        simp [adjNH, hn]

lemma noPairR_adjHT_sanlAux (s : Bool) (l : List Char)
    (h : noPairR adjHT l = true) : noPairR adjHT (sanlAux s l) = true := by
  induction l generalizing s with
  | nil => rfl
  | cons c rest ih =>
    by_cases hd : (s && isHT c) = true
    · rw [sanlAux_cons, if_pos hd]
      exact ih true (noPairR_tail h)
    · by_cases hn : c = '\n'
      · rw [sanlAux_cons_nl s rest hd hn]
        refine noPairR_cons ?_ (ih true (noPairR_tail h))
        intro b hb
        simp [adjHT, show isHT '\n' = false from by decide]
      · rw [sanlAux_cons_keep s rest hd hn]
        refine noPairR_cons ?_ (ih false (noPairR_tail h))
        intro b hb
        rw [sanlAux_false_head rest] at hb
        exact noPairR_head h b hb

lemma sanlAux_true_eq (l : List Char)
    (h : ∀ x, l.head? = some x → isHT x = false) :
    sanlAux true l = sanlAux false l := by
  cases l with
  | nil => rfl
  | cons c rest =>
    have hc : isHT c = false := h c rfl
    rw [sanlAux_cons, sanlAux_cons]
    simp [hc]

lemma stripAfterNL_id (l : List Char) (h : noPairR adjNH l = true) :
    stripAfterNL l = l := by
  unfold stripAfterNL
  induction l with
  | nil => rfl
  | cons c rest ih =>
    by_cases hn : c = '\n'
    · have hhd : ∀ x, rest.head? = some x → isHT x = false := by
        intro x hx
        have := noPairR_head h x hx
        simpa [adjNH, hn] using this
      rw [sanlAux_cons_nl false rest (by simp) hn,
        sanlAux_true_eq rest hhd, ih (noPairR_tail h), hn]
    · rw [sanlAux_cons_keep false rest (by simp) hn, ih (noPairR_tail h)]

lemma emitNL_cases (n : Nat) :
    emitNL n = [] ∨ emitNL n = ['\n'] ∨ emitNL n = ['\n', '\n'] := by
  unfold emitNL
  by_cases h : 3 ≤ n
  · rw [if_pos h]; right; right; rfl
  · rw [if_neg h]
    interval_cases n
    · left; rfl
    · right; left; rfl
    · right; right; rfl

lemma emitNL_of_lt {n : Nat} (h : n < 3) : emitNL n = List.replicate n '\n' := by
  unfold emitNL
  rw [if_neg (by omega)]

lemma emitNL_ne_nil {n : Nat} (h : 1 ≤ n) : emitNL n ≠ [] := by
  unfold emitNL
  by_cases h3 : 3 ≤ n
  · rw [if_pos h3]; simp
  · rw [if_neg h3]
    simp [List.replicate_eq_nil_iff]
    omega

lemma mem_emitNL {x : Char} {n : Nat} (h : x ∈ emitNL n) : x = '\n' := by
  rcases emitNL_cases n with h1 | h1 | h1 <;> rw [h1] at h <;> simp_all

lemma cnlAux_nil (p : Nat) : cnlAux p [] = emitNL p := rfl

lemma cnlAux_cons_nl {c : Char} (p : Nat) (rest : List Char) (hc : c = '\n') :
    cnlAux p (c :: rest) = cnlAux (p + 1) rest := by
  show (if c = '\n' then cnlAux (p + 1) rest
        else emitNL p ++ c :: cnlAux 0 rest) = _
  rw [if_pos hc]

lemma cnlAux_cons_keep {c : Char} (p : Nat) (rest : List Char) (hc : ¬ c = '\n') :
    cnlAux p (c :: rest) = emitNL p ++ c :: cnlAux 0 rest := by
  show (if c = '\n' then cnlAux (p + 1) rest
        else emitNL p ++ c :: cnlAux 0 rest) = _
  rw [if_neg hc]

lemma cnlAux_head_pos (l : List Char) :
    ∀ p, 1 ≤ p → (cnlAux p l).head? = some '\n' := by
  induction l with
  | nil =>
    intro p hp
    rw [cnlAux_nil]
    rcases emitNL_cases p with h | h | h
    · exact absurd h (emitNL_ne_nil hp)
    · rw [h]; rfl
    · rw [h]; rfl
  | cons c rest ih =>
    intro p hp
    by_cases hc : c = '\n'
    · rw [cnlAux_cons_nl p rest hc]
      exact ih (p + 1) (by omega)
    · rw [cnlAux_cons_keep p rest hc]
      rcases emitNL_cases p with h | h | h
      · exact absurd h (emitNL_ne_nil hp)
      · rw [h]; rfl
      · rw [h]; rfl

lemma cnlAux_zero_head (l : List Char) : (cnlAux 0 l).head? = l.head? := by
  cases l with
  | nil => rfl
  | cons c rest =>
    by_cases hc : c = '\n'
    · rw [cnlAux_cons_nl 0 rest hc, cnlAux_head_pos rest 1 le_rfl, hc]
      rfl
    · rw [cnlAux_cons_keep 0 rest hc, emitNL_of_lt (by omega)]
      rfl

lemma mem_cnlAux {x : Char} {p : Nat} {l : List Char}
    (h : x ∈ cnlAux p l) : x = '\n' ∨ x ∈ l := by
  induction l generalizing p with
  | nil => exact Or.inl (mem_emitNL (by rwa [cnlAux_nil] at h))
  | cons c rest ih =>
    by_cases hc : c = '\n'
    · rw [cnlAux_cons_nl p rest hc] at h
      rcases ih h with h1 | h1
      · exact Or.inl h1
      · exact Or.inr (List.mem_cons_of_mem _ h1)
    · rw [cnlAux_cons_keep p rest hc] at h
      rcases List.mem_append.mp h with h1 | h1
      · exact Or.inl (mem_emitNL h1)
      · rcases List.mem_cons.mp h1 with h2 | h2
        · exact Or.inr (by rw [h2]; exact List.mem_cons_self _ _)
        · rcases ih h2 with h3 | h3
          · exact Or.inl h3
          · exact Or.inr (List.mem_cons_of_mem _ h3)

lemma noNNN_cnlAux (p : Nat) (l : List Char) : noNNN (cnlAux p l) = true := by
  induction l generalizing p with
  | nil =>
    rw [cnlAux_nil]
    rcases emitNL_cases p with h | h | h <;> rw [h] <;> rfl
  | cons c rest ih =>
    by_cases hc : c = '\n'
    · rw [cnlAux_cons_nl p rest hc]
      exact ih (p + 1)
    · rw [cnlAux_cons_keep p rest hc]
      have h0 : noNNN (c :: cnlAux 0 rest) = true := by
        refine noNNN_cons ?_ (ih 0)
        intro b cc t heq hw
        exact hc hw.1
      have h1 : noNNN ('\n' :: c :: cnlAux 0 rest) = true := by
        refine noNNN_cons ?_ h0
        intro b cc t heq hw
        have hcb : c = b := by simpa using congrArg List.head? heq
        exact hc (by rw [hcb]; exact hw.2.1)
      rcases emitNL_cases p with h | h | h <;> rw [h]
      · exact h0
      · exact h1
      · refine noNNN_cons ?_ h1
        intro b cc t heq hw
        have hccc : c = cc := by
          simpa using congrArg (fun l => l.tail.head?) heq
        exact hc (by rw [hccc]; exact hw.2.2)

lemma replicate_succ_append (p : Nat) (l : List Char) :
    List.replicate (p + 1) '\n' ++ l = List.replicate p '\n' ++ '\n' :: l := by
  rw [List.replicate_succ']
  simp

lemma noNNN_replicate_ge {p : Nat} (t : List Char) (h : 3 ≤ p) :
    noNNN (List.replicate p '\n' ++ t) = false := by
  obtain ⟨k, rfl⟩ : ∃ k, p = k + 3 := ⟨p - 3, by omega⟩
  show noNNN (List.replicate (k + 1 + 1 + 1) '\n' ++ t) = false
  simp only [List.replicate_succ, List.cons_append]
  simp [noNNN]

lemma noPairR_replicate_head {R : Char → Char → Bool} {c : Char}
    {rest : List Char} :
    ∀ p, 1 ≤ p →
      noPairR R (List.replicate p '\n' ++ c :: rest) = true → R '\n' c = false := by
  intro p
  induction p with
  | zero => omega
  | succ q ih =>
    intro _ h
    rcases Nat.eq_zero_or_pos q with hq | hq
    · subst hq
      have h' : noPairR R ('\n' :: c :: rest) = true := by simpa using h
      exact noPairR_head h' c rfl
    · rw [replicate_succ_append] at h
      have h2 : noPairR R (List.replicate q '\n' ++ '\n' :: c :: rest) = true := h
      have h3 := noPairR_append_right (t := List.replicate q '\n') h2
      exact noPairR_head h3 c rfl

lemma noPairR_cnlAux {R : Char → Char → Bool} (hR : ∀ x, R x '\n' = false)
    {l : List Char} :
    ∀ p, noPairR R (List.replicate p '\n' ++ l) = true →
      noPairR R (cnlAux p l) = true := by
  induction l with
  | nil =>
    intro p h
    rw [cnlAux_nil]
    rcases emitNL_cases p with h1 | h1 | h1 <;> rw [h1]
    · rfl
    · rfl
    · exact noPairR_cons (fun b hb => by
        simp only [List.head?_cons, Option.some.injEq] at hb
        rw [← hb]; exact hR '\n') rfl
  | cons c rest ih =>
    intro p h
    by_cases hc : c = '\n'
    · subst hc
      rw [cnlAux_cons_nl p rest rfl]
      apply ih (p + 1)
      rw [replicate_succ_append]
      exact h
    · rw [cnlAux_cons_keep p rest hc]
      have hcr : noPairR R (c :: rest) = true :=
        noPairR_append_right (t := List.replicate p '\n') h
      have hinner : noPairR R (c :: cnlAux 0 rest) = true := by
        refine noPairR_cons ?_ (ih 0 (noPairR_tail hcr))
        intro b hb
        rw [cnlAux_zero_head rest] at hb
        exact noPairR_head hcr b hb
      rcases Nat.eq_zero_or_pos p with hp | hp
      · subst hp
        rw [emitNL_of_lt (by omega)]
        simpa using hinner
      · have hnc : R '\n' c = false := noPairR_replicate_head p hp h
        have h1 : noPairR R ('\n' :: c :: cnlAux 0 rest) = true :=
          noPairR_cons (fun b hb => by
            simp only [List.head?_cons, Option.some.injEq] at hb
            rw [← hb]; exact hnc) hinner
        rcases emitNL_cases p with he | he | he <;> rw [he]
        · exact absurd he (emitNL_ne_nil hp)
        · exact h1
        · rw [List.cons_append, List.singleton_append]
          exact noPairR_cons (fun b hb => by
            simp only [List.head?_cons, Option.some.injEq] at hb
            rw [← hb]; exact hR '\n') h1

lemma cnlAux_id {l : List Char} :
    ∀ p, noNNN (List.replicate p '\n' ++ l) = true →
      cnlAux p l = List.replicate p '\n' ++ l := by
  induction l with
  | nil =>
    intro p h
    have hp : p < 3 := by
      by_contra hge
      rw [noNNN_replicate_ge [] (by omega)] at h
      cases h
    rw [cnlAux_nil, emitNL_of_lt hp]
    simp
  | cons c rest ih =>
    intro p h
    by_cases hc : c = '\n'
    · subst hc
      rw [cnlAux_cons_nl p rest rfl, ih (p + 1)
        (by rw [replicate_succ_append]; exact h),
        replicate_succ_append]
    · have hp : p < 3 := by
        by_contra hge
        rw [noNNN_replicate_ge (c :: rest) (by omega)] at h
        cases h
      have hrest : noNNN rest = true := by
        have h1 : noNNN (c :: rest) = true :=
          noNNN_append_right (t := List.replicate p '\n') h
        exact noNNN_tail h1
      have hrest0 : noNNN (List.replicate 0 '\n' ++ rest) = true := hrest
      rw [cnlAux_cons_keep p rest hc, emitNL_of_lt hp, ih 0 hrest0]
      simp

lemma ffFix_ne (c : Char) : ffFix c ≠ '\x0c' := by
  unfold ffFix
  split
  · decide
  · assumption

lemma crFix_ne (c : Char) : crFix c ≠ '\r' := by
  unfold crFix
  split
  · decide
  · assumption

lemma no_ff_map (l : List Char) : '\x0c' ∉ (l.map ffFix).map crFix := by
  intro h
  rw [List.mem_map] at h
  obtain ⟨a, ha, hfa⟩ := h
  rw [List.mem_map] at ha
  obtain ⟨b, _, hfb⟩ := ha
  have hx : a = '\x0c' := by
    unfold crFix at hfa
    split at hfa
    · exact absurd hfa (by decide)
    · exact hfa
  rw [← hfb] at hx
  exact ffFix_ne b hx

lemma no_cr_map (l : List Char) : '\r' ∉ (l.map ffFix).map crFix := by
  intro h
  rw [List.mem_map] at h
  obtain ⟨a, _, hfa⟩ := h
  exact crFix_ne a hfa

lemma map_eq_self {f : Char → Char} {l : List Char} (h : ∀ c ∈ l, f c = c) :
    l.map f = l := by
  induction l with
  | nil => rfl
  | cons c rest ih =>
    rw [List.map_cons, h c (List.mem_cons_self _ _),
      ih (fun d hd => h d (List.mem_cons_of_mem _ hd))]

lemma cleanList_no_ff (l : List Char) : '\x0c' ∉ cleanList l := by
  intro h
  unfold cleanList collapseNL stripAfterNL collapseHT at h
  have h5 := mem_pyStrip h
  rcases mem_cnlAux h5 with h4 | h4
  · exact absurd h4 (by decide)
  · have h3 := mem_sanlAux h4
    rcases mem_chtAux h3 with h2 | h2
    · exact absurd h2 (by decide)
    · exact no_ff_map l h2

lemma cleanList_no_cr (l : List Char) : '\r' ∉ cleanList l := by
  intro h
  unfold cleanList collapseNL stripAfterNL collapseHT at h
  have h5 := mem_pyStrip h
  rcases mem_cnlAux h5 with h4 | h4
  · exact absurd h4 (by decide)
  · have h3 := mem_sanlAux h4
    rcases mem_chtAux h3 with h2 | h2
    · exact absurd h2 (by decide)
    · exact no_cr_map l h2

lemma cleanList_no_tab (l : List Char) : '\t' ∉ cleanList l := by
  intro h
  unfold cleanList collapseNL stripAfterNL collapseHT at h
  have h5 := mem_pyStrip h
  rcases mem_cnlAux h5 with h4 | h4
  · exact absurd h4 (by decide)
  · exact tab_not_mem_chtAux false _ (mem_sanlAux h4)

lemma cleanList_adjHT (l : List Char) : noPairR adjHT (cleanList l) = true := by
  unfold cleanList collapseNL stripAfterNL collapseHT
  apply noPairR_pyStrip
  apply noPairR_cnlAux (fun x => by
    simp [adjHT, show isHT '\n' = false from by decide])
  show noPairR adjHT (List.replicate 0 '\n' ++ _) = true
  simp only [List.replicate_zero, List.nil_append]
  exact noPairR_adjHT_sanlAux false _ (noPairR_adjHT_chtAux false _)

lemma cleanList_adjNH (l : List Char) : noPairR adjNH (cleanList l) = true := by
  unfold cleanList collapseNL stripAfterNL
  apply noPairR_pyStrip
  apply noPairR_cnlAux (fun x => by
    simp [adjNH, show isHT '\n' = false from by decide])
  show noPairR adjNH (List.replicate 0 '\n' ++ _) = true
  simp only [List.replicate_zero, List.nil_append]
  exact noPairR_adjNH_sanlAux false _

lemma cleanList_noNNN (l : List Char) : noNNN (cleanList l) = true := by
  unfold cleanList collapseNL
  exact noNNN_pyStrip (noNNN_cnlAux 0 _)

lemma cleanList_idem (l : List Char) : cleanList (cleanList l) = cleanList l := by
  have hff := cleanList_no_ff l
  have hcr := cleanList_no_cr l
  have htab := cleanList_no_tab l
  have hHT := cleanList_adjHT l
  have hNH := cleanList_adjNH l
  have h3N := cleanList_noNNN l
  have hh : ∀ x, (cleanList l).head? = some x → isPyWS x = false := by
    unfold cleanList
    exact pyStrip_head _
  have hl : ∀ x, (cleanList l).getLast? = some x → isPyWS x = false := by
    unfold cleanList
    exact pyStrip_last _
  have hmap1 : (cleanList l).map ffFix = cleanList l :=
    map_eq_self (fun c hc => by
      unfold ffFix
      rw [if_neg]
      intro he
      exact hff (he ▸ hc))
  have hmap2 : (cleanList l).map crFix = cleanList l :=
    map_eq_self (fun c hc => by
      unfold crFix
      rw [if_neg]
      intro he
      exact hcr (he ▸ hc))
  have hc5 : collapseNL (cleanList l) = cleanList l := by
    unfold collapseNL
    have h0 : noNNN (List.replicate 0 '\n' ++ cleanList l) = true := h3N
    rw [cnlAux_id 0 h0]
    simp
  conv_lhs => rw [cleanList]
  rw [hmap1, hmap2, collapseHT_id _ htab hHT, stripAfterNL_id _ hNH, hc5,
    pyStrip_id _ hh hl]

/-- C5: the text normalizer `clean_text` is idempotent — for every input
string `x`, `clean_text (clean_text x) = clean_text x` (ocr_pages.py
lines 39-45). -/
theorem C5_clean_text_idempotent (s : String) :
    clean_text (clean_text s) = clean_text s := by
  show (⟨cleanList (cleanList s.data)⟩ : String) = ⟨cleanList s.data⟩
  rw [cleanList_idem]

lemma iou_gt_quarter_iff (b m : Box) : iou b m > 1 / 4 ↔ iouGT b m = true := by
  unfold iou iouGT
  have hd : (0 : Int) < max 1 (unionArea b m) :=
    lt_of_lt_of_le one_pos (le_max_left 1 _)
  have hdq : (0 : ℚ) < ((max 1 (unionArea b m) : Int) : ℚ) := by exact_mod_cast hd
  rw [gt_iff_lt, show (1 : ℚ) / 4 = 1 / 4 from rfl,
    div_lt_div_iff₀ (by norm_num) hdq, decide_eq_true_eq, gt_iff_lt]
  constructor
  · intro h
    have h2 : (max 1 (unionArea b m) : ℚ) < 4 * (interArea b m : ℚ) := by
      push_cast at h
      linarith
    exact_mod_cast h2
  · intro h
    have h2 : ((max 1 (unionArea b m) : Int) : ℚ) < 4 * (interArea b m : ℚ) := by
      exact_mod_cast h
    linarith

lemma interArea_comm (b m : Box) : interArea b m = interArea m b := by
  unfold interArea
  rw [min_comm (b.x + b.w), max_comm b.x, min_comm (b.y + b.h), max_comm b.y]

lemma unionArea_comm (b m : Box) : unionArea b m = unionArea m b := by
  unfold unionArea
  rw [interArea_comm]
  ring

lemma iouGT_comm (b m : Box) : iouGT b m = iouGT m b := by
  unfold iouGT
  rw [interArea_comm, unionArea_comm]

lemma interArea_ne_of_iouGT {b m : Box} (h : iouGT b m = true) :
    ¬ interArea b m = 0 := by
  intro h0
  unfold iouGT at h
  rw [h0] at h
  simp only [decide_eq_true_eq, gt_iff_lt, mul_zero] at h
  have : (1 : Int) ≤ max 1 (unionArea b m) := le_max_left 1 _
  omega

-- sanity examples
example : mergeBoxes [⟨0,0,4,4⟩, ⟨0,0,6,6⟩] = [⟨0,0,6,6⟩] := by decide

example : mergeBoxes [⟨0,0,4,4⟩, ⟨100,100,4,4⟩] = [⟨0,0,4,4⟩, ⟨100,100,4,4⟩] := by
  decide

lemma mergeStep_nil (b : Box) : mergeStep [] b = [b] := rfl

lemma mergeScan_single_pos {b m : Box} (hGT : iouGT b m = true) :
    mergeScan b [m] = some [if b.area > m.area then b else m] := by
  unfold mergeScan
  rw [if_neg (interArea_ne_of_iouGT hGT), if_pos hGT]

lemma mergeScan_single_neg {b m : Box} (hGT : iouGT b m = false) :
    mergeScan b [m] = none := by
  unfold mergeScan
  by_cases h0 : interArea b m = 0
  · rw [if_pos h0]
    rfl
  · rw [if_neg h0, if_neg (by simp [hGT])]
    rfl

/-- C1: for a two-rectangle input to the overlap-suppression stage with IoU
above 0.25 and distinct areas, exactly the larger-area rectangle survives and
the other is discarded, whichever rectangle is processed first; with IoU at or
below 0.25 both rectangles appear in the output in processing order
(ocr_pages.py lines 262-293).  The equal-area tie is the subject of C10. -/
theorem C1_overlap_resolver_pairwise (r1 r2 : Box) :
    (iou r2 r1 > 1 / 4 → r1.area < r2.area →
       mergeBoxes [r1, r2] = [r2] ∧ mergeBoxes [r2, r1] = [r2]) ∧
    (¬ iou r2 r1 > 1 / 4 →
       mergeBoxes [r1, r2] = [r1, r2] ∧ mergeBoxes [r2, r1] = [r2, r1]) := by
  constructor
  · intro hq harea
    have hGT : iouGT r2 r1 = true := (iou_gt_quarter_iff r2 r1).mp hq
    have hGT' : iouGT r1 r2 = true := by rw [iouGT_comm]; exact hGT
    constructor
    · show mergeStep (mergeStep [] r1) r2 = [r2]
      rw [mergeStep_nil]
      unfold mergeStep
      rw [mergeScan_single_pos hGT, if_pos harea]
    · show mergeStep (mergeStep [] r2) r1 = [r2]
      rw [mergeStep_nil]
      unfold mergeStep
      rw [mergeScan_single_pos hGT', if_neg (lt_asymm harea)]
  · intro hq
    have hGT : iouGT r2 r1 = false := by
      rcases Bool.eq_false_or_eq_true (iouGT r2 r1) with h | h
      · exact absurd ((iou_gt_quarter_iff r2 r1).mpr h) hq
      · exact h
    have hGT' : iouGT r1 r2 = false := by rw [iouGT_comm]; exact hGT
    constructor
    · show mergeStep (mergeStep [] r1) r2 = [r1, r2]
      rw [mergeStep_nil]
      unfold mergeStep
      rw [mergeScan_single_neg hGT]
      rfl
    · show mergeStep (mergeStep [] r2) r1 = [r2, r1]
      rw [mergeStep_nil]
      unfold mergeStep
      rw [mergeScan_single_neg hGT']
      rfl

/-- Witness for C1 at concrete rectangles: `(0,0,4,4)` (area 16) against
`(0,0,6,6)` (area 36) have IoU `16/36 > 0.25`, and the larger survives in
both orders; `(0,0,4,4)` against `(100,100,4,4)` do not overlap, and both
survive in both orders. -/
theorem C1_witness :
    mergeBoxes [⟨0,0,4,4⟩, ⟨0,0,6,6⟩] = [⟨0,0,6,6⟩] ∧
    mergeBoxes [⟨0,0,6,6⟩, ⟨0,0,4,4⟩] = [⟨0,0,6,6⟩] ∧
    mergeBoxes [⟨0,0,4,4⟩, ⟨100,100,4,4⟩] = [⟨0,0,4,4⟩, ⟨100,100,4,4⟩] := by
  have h1 := (C1_overlap_resolver_pairwise ⟨0,0,4,4⟩ ⟨0,0,6,6⟩).1
    ((iou_gt_quarter_iff _ _).mpr (by decide)) (by decide)
  have h2 := (C1_overlap_resolver_pairwise ⟨0,0,4,4⟩ ⟨100,100,4,4⟩).2
    (fun hq => absurd ((iou_gt_quarter_iff _ _).mp hq) (by decide))
  exact ⟨h1.1, h1.2, h2.1⟩

lemma mergeScan_length {b : Box} :
    ∀ {acc acc2 : List Box}, mergeScan b acc = some acc2 →
      acc2.length = acc.length := by
  intro acc
  induction acc with
  | nil => intro acc2 h; cases h
  | cons m rest ih =>
    intro acc2 h
    unfold mergeScan at h
    by_cases h0 : interArea b m = 0
    · rw [if_pos h0, Option.map_eq_some'] at h
      obtain ⟨r2, hr2, rfl⟩ := h
      simp [ih hr2]
    · rw [if_neg h0] at h
      by_cases hGT : iouGT b m = true
      · rw [if_pos hGT] at h
        cases h
        simp
      · rw [if_neg hGT, Option.map_eq_some'] at h
        obtain ⟨r2, hr2, rfl⟩ := h
        simp [ih hr2]

lemma mergeScan_count {b : Box} (v : Box) :
    ∀ {acc acc2 : List Box}, mergeScan b acc = some acc2 →
      acc2.count v ≤ acc.count v + List.count v [b] := by
  intro acc
  induction acc with
  | nil => intro acc2 h; cases h
  | cons m rest ih =>
    intro acc2 h
    unfold mergeScan at h
    by_cases h0 : interArea b m = 0
    · rw [if_pos h0, Option.map_eq_some'] at h
      obtain ⟨r2, hr2, rfl⟩ := h
      have hr := ih hr2
      rw [show m :: r2 = [m] ++ r2 from rfl, List.count_append,
        show m :: rest = [m] ++ rest from rfl, List.count_append]
      omega
    · rw [if_neg h0] at h
      by_cases hGT : iouGT b m = true
      · rw [if_pos hGT] at h
        cases h
        by_cases hab : b.area > m.area
        · rw [if_pos hab, show b :: rest = [b] ++ rest from rfl,
            List.count_append, show m :: rest = [m] ++ rest from rfl,
            List.count_append]
          omega
        · rw [if_neg hab]
          exact Nat.le_add_right _ _
      · rw [if_neg hGT, Option.map_eq_some'] at h
        obtain ⟨r2, hr2, rfl⟩ := h
        have hr := ih hr2
        rw [show m :: r2 = [m] ++ r2 from rfl, List.count_append,
          show m :: rest = [m] ++ rest from rfl, List.count_append]
        omega

lemma mergeStep_length (acc : List Box) (b : Box) :
    (mergeStep acc b).length ≤ acc.length + 1 := by
  unfold mergeStep
  cases h : mergeScan b acc with
  | none => simp
  | some acc2 => rw [mergeScan_length h]; omega

lemma mergeStep_count (acc : List Box) (b v : Box) :
    (mergeStep acc b).count v ≤ acc.count v + List.count v [b] := by
  unfold mergeStep
  cases h : mergeScan b acc with
  | none => rw [List.count_append]
  | some acc2 => exact mergeScan_count v h

lemma foldl_mergeStep_length :
    ∀ (bs acc : List Box),
      (List.foldl mergeStep acc bs).length ≤ acc.length + bs.length := by
  intro bs
  induction bs with
  | nil => intro acc; simp
  | cons b bs ih =>
    intro acc
    have h1 := ih (mergeStep acc b)
    have h2 := mergeStep_length acc b
    simp only [List.foldl_cons, List.length_cons]
    omega

lemma foldl_mergeStep_count (v : Box) :
    ∀ (bs acc : List Box),
      (List.foldl mergeStep acc bs).count v ≤ acc.count v + bs.count v := by
  intro bs
  induction bs with
  | nil => intro acc; simp
  | cons b bs ih =>
    intro acc
    have h1 := ih (mergeStep acc b)
    have h2 := mergeStep_count acc b v
    rw [List.foldl_cons, show b :: bs = [b] ++ bs from rfl, List.count_append]
    omega

/-- C10: the overlap-suppression stage never creates or alters geometry —
its output is no longer than its input, each rectangle value occurs in the
output at most as often as in the input (hence every output rectangle is one
of the inputs, coordinates unchanged), and when two equal-area rectangles
overlap with IoU above 0.25 the earlier-kept rectangle survives
(ocr_pages.py lines 262-293). -/
theorem C10_merge_invariants :
    (∀ boxes : List Box,
       (mergeBoxes boxes).length ≤ boxes.length ∧
       (∀ v : Box, (mergeBoxes boxes).count v ≤ boxes.count v) ∧
       (∀ v : Box, v ∈ mergeBoxes boxes → v ∈ boxes)) ∧
    (∀ r1 r2 : Box, iou r2 r1 > 1 / 4 → r1.area = r2.area →
       mergeBoxes [r1, r2] = [r1]) := by
  constructor
  · intro boxes
    have hlen := foldl_mergeStep_length boxes []
    have hcnt : ∀ v : Box, (mergeBoxes boxes).count v ≤ boxes.count v := by
      intro v
      have := foldl_mergeStep_count v boxes []
      simpa [mergeBoxes] using this
    refine ⟨by simpa [mergeBoxes] using hlen, hcnt, ?_⟩
    intro v hv
    have h1 : 0 < (mergeBoxes boxes).count v := List.count_pos_iff.mpr hv
    have h2 : 0 < boxes.count v := lt_of_lt_of_le h1 (hcnt v)
    exact List.count_pos_iff.mp h2
  · intro r1 r2 hq harea
    have hGT : iouGT r2 r1 = true := (iou_gt_quarter_iff r2 r1).mp hq
    show mergeStep (mergeStep [] r1) r2 = [r1]
    rw [mergeStep_nil]
    unfold mergeStep
    rw [mergeScan_single_pos hGT, if_neg (by rw [harea]; exact lt_irrefl _)]

/-- Witness for C10 at the concrete input `[(0,0,4,4), (1,0,4,4)]`: two
equal-area rectangles with IoU `12/20 > 0.25`; the output is the single
earlier rectangle, within the input-length bound. -/
theorem C10_witness :
    (mergeBoxes [⟨0,0,4,4⟩, ⟨1,0,4,4⟩]).length ≤ 2 ∧
    mergeBoxes [⟨0,0,4,4⟩, ⟨1,0,4,4⟩] = [⟨0,0,4,4⟩] := by
  refine ⟨(C10_merge_invariants.1 [⟨0,0,4,4⟩, ⟨1,0,4,4⟩]).1, ?_⟩
  exact C10_merge_invariants.2 ⟨0,0,4,4⟩ ⟨1,0,4,4⟩
    ((iou_gt_quarter_iff _ _).mpr (by decide)) rfl

-- sanity examples: the docstring/test examples of both source files
example : ocr_generate_album_slug "1931-1939 courting & marriage" =
    "1931-1939-courting--marriage" := by decide

example : ocr_generate_album_slug "1968-1969 Louise's marriage" =
    "1968-1969-louises-marriage" := by decide

example : rebuild_generate_album_slug "1956 Calif. Trip (Bk. 2)" =
    "1956-calif.-trip-bk.-2" := by decide

example : rebuild_generate_album_slug "1973-1974 John&Ben Born" =
    "1973-1974-johnben-born" := by decide

example : rebuild_generate_album_slug "1969 - 25th anniv. Trip to Europe" =
    "1969---25th-anniv.-trip-to-europe" := by decide

/-- C7 counterexample: the two slug transforms are not the same function.
On the album folder name `"1973-1974 John&Ben Born"` (a documented test case
of rebuild_search_index.py) the batch OCR pipeline keeps the standalone
ampersand while the rebuild script strips it, so the two scripts produce
different slugs. -/
theorem C7_counterexample :
    ocr_generate_album_slug "1973-1974 John&Ben Born" ≠
      rebuild_generate_album_slug "1973-1974 John&Ben Born" ∧
    ocr_generate_album_slug "1973-1974 John&Ben Born" =
      "1973-1974-john&ben-born" ∧
    rebuild_generate_album_slug "1973-1974 John&Ben Born" =
      "1973-1974-johnben-born" := by
  refine ⟨by decide, by decide, by decide⟩

/-- C7 amended: the slug transform of the batch OCR pipeline and the slug
transform of the search-index rebuild script agree on every album folder
name whose lowercased, ampersand-replaced form contains no parentheses,
square brackets, curly braces, and no remaining ampersand; they differ on
names with brackets or a standalone ampersand, which only the rebuild script
strips. -/
theorem C7_slug_agreement (s : String)
    (h : ∀ c ∈ replaceAmpSpaced (s.data.map Char.toLower),
        isBracketChar c = false ∧ c ≠ '&') :
    ocr_generate_album_slug s = rebuild_generate_album_slug s := by
  unfold ocr_generate_album_slug rebuild_generate_album_slug
  congr 1
  have h1 : (replaceAmpSpaced (s.data.map Char.toLower)).filter
      (fun c => !isBracketChar c) = replaceAmpSpaced (s.data.map Char.toLower) :=
    List.filter_eq_self.mpr (fun c hc => by simp [(h c hc).1])
  rw [h1]
  have h3 : ((replaceAmpSpaced (s.data.map Char.toLower)).filter
        (fun c => !isApos c)).filter (fun c => !(c == '&')) =
      (replaceAmpSpaced (s.data.map Char.toLower)).filter
        (fun c => !isApos c) :=
    List.filter_eq_self.mpr (fun c hc => by
      have := (h c (List.mem_of_mem_filter hc)).2
      simp [this])
  rw [h3]

/-- Witness for C7's amended claim at the folder name
`"1931-1939 courting & marriage"`, which contains no brackets and no
standalone ampersand: both scripts produce the same slug. -/
theorem C7_witness :
    ocr_generate_album_slug "1931-1939 courting & marriage" =
      rebuild_generate_album_slug "1931-1939 courting & marriage" :=
  C7_slug_agreement _ (by decide)

/-- C9: batch mode without an input directory or without a search-index path
fails with an error before any album processing (no `MainAction` is
produced); single-album mode likewise fails immediately when the input
folder or output path is missing (ocr_pages.py lines 794-802). -/
theorem C9_config_errors (inDir outPath searchIndexPath : Option String) :
    ((falsyOpt inDir || falsyOpt searchIndexPath) = true →
       ∃ msg, mainDispatch inDir outPath searchIndexPath true =
         Except.error msg) ∧
    ((falsyOpt inDir || falsyOpt outPath) = true →
       ∃ msg, mainDispatch inDir outPath searchIndexPath false =
         Except.error msg) := by
  constructor
  · intro h
    exact ⟨_, by unfold mainDispatch; rw [if_pos rfl, if_pos h]⟩
  · intro h
    exact ⟨_, by unfold mainDispatch; rw [if_neg Bool.false_ne_true, if_pos h]⟩

/-- Witness for C9: batch mode invoked with no input directory errors out;
single-album mode invoked with an empty output path errors out. -/
theorem C9_witness :
    (∃ msg, mainDispatch none (some "out.json") none true =
       Except.error msg) ∧
    (∃ msg, mainDispatch (some "albums") (some "") none false =
       Except.error msg) :=
  ⟨(C9_config_errors none (some "out.json") none).1 (by decide),
   (C9_config_errors (some "albums") (some "") none).2 (by decide)⟩

-- sanity examples
example : has_excessive_repetition ("nnnnnnn" : String).data = true := by decide

example : has_excessive_repetition ("Nannnnnccceeee" : String).data = false := by
  decide

example :
    has_excessive_repetition ("aaaa bbbb cccc" : String).data = true := by decide

example : has_excessive_repetition ("good caption..." : String).data = false := by
  decide

-- sanity examples: split keeps the captured delimiters and the final piece
example : splitSent ("a. b. c" : String).data =
    [("a" : String).data, (". " : String).data, ("b" : String).data,
      (". " : String).data, ("c" : String).data] := by decide

example : splitSent ("no split here" : String).data =
    [("no split here" : String).data] := by decide

example : splitSent ("end." : String).data = [("end." : String).data] := by
  decide

-- sanity examples
example : detect_llm_duplication "Large farm. Large farm barn." =
    "Large farm." := by decide

example : detect_llm_duplication "One red barn. Two blue cars." =
    "One red barn. Two blue cars." := by decide

example : detect_llm_duplication "short" = "short" := by decide

lemma sentScan_flatten :
    ∀ (st : Bool) (acc l : List Char),
      (sentScan st acc l).flatten = acc.reverse ++ l := by
  intro st acc l
  induction st, acc, l using sentScan.induct <;>
    simp_all [sentScan, List.reverse_cons]
  all_goals
    rename_i hpw ih
    rw [if_neg (fun hx => by
      have h2 := hx.2
      rw [hpw hx.1] at h2
      exact Bool.false_ne_true h2)]
    simp [ih]

lemma flatten_splitSent (l : List Char) : (splitSent l).flatten = l := by
  unfold splitSent
  rw [sentScan_flatten]
  rfl

/-- C2 counterexample: the duplication filter does not truncate on the
claim's condition.  In the two-sentence input below, sentence 2 repeats 2 of
the 3 length-≥4 lowercase words of sentence 1 — more than 50% of sentence
1's words — yet the filter returns the whole text unchanged, because the
code divides the shared-word count by the size of the larger word set
(`max(len(words_curr), len(words_prev))`, ocr_pages.py line 94), which here
is 7. -/
theorem C2_counterexample :
    detect_llm_duplication
        "Large farm barn. Large farm extra other more words here." =
      "Large farm barn. Large farm extra other more words here." ∧
    (2 * interCount
        (words4set (("Large farm extra other more words here." : String).data.map
          Char.toLower))
        (words4set (("Large farm barn" : String).data.map Char.toLower)) >
      (words4set (("Large farm barn" : String).data.map Char.toLower)).length) ∧
    detect_llm_duplication
        "Large farm barn. Large farm extra other more words here." ≠
      "Large farm barn." := by
  refine ⟨by decide, by decide, by decide⟩

/-- C2 amended: the sentence-duplication filter walks sentences in order
and, at the first sentence whose length-≥4 lowercase word set shares with
some previously retained sentence more than 50% of the larger of the two
word sets (both nonempty), truncates the output there, returning only the
previously retained sentences; in particular, for a two-sentence input where
the shared words exceed half of the larger of the two sentences' word sets,
the result is sentence 1 (with its delimiter) stripped, and otherwise the
whole text stripped (ocr_pages.py lines 69-101). -/
theorem C2_duplication_truncation (text : String) (s1 d1 s2 : List Char)
    (hsplit : splitSent text.data = [s1, d1, s2]) :
    (overlapGT (s1 ++ d1) s2 = true →
       detect_llm_duplication text = ⟨pyStrip (s1 ++ d1)⟩) ∧
    (overlapGT (s1 ++ d1) s2 = false →
       detect_llm_duplication text = ⟨pyStrip text.data⟩) := by
  have htext : s1 ++ (d1 ++ (s2 ++ [])) = text.data := by
    have := flatten_splitSent text.data
    rw [hsplit] at this
    simpa using this
  constructor
  · intro hov
    unfold detect_llm_duplication
    rw [hsplit]
    rw [if_neg (by simp)]
    show (⟨pyStrip (dupWalk (pairUp [s1, d1, s2]) []).flatten⟩ : String) = _
    rw [show pairUp [s1, d1, s2] = [(s1, d1), (s2, [])] from rfl]
    unfold dupWalk
    rw [if_neg (by simp)]
    unfold dupWalk
    rw [if_pos (by simp [hov])]
    simp
  · intro hov
    unfold detect_llm_duplication
    rw [hsplit]
    rw [if_neg (by simp)]
    show (⟨pyStrip (dupWalk (pairUp [s1, d1, s2]) []).flatten⟩ : String) = _
    rw [show pairUp [s1, d1, s2] = [(s1, d1), (s2, [])] from rfl]
    unfold dupWalk
    rw [if_neg (by simp)]
    unfold dupWalk
    rw [if_neg (by simp [hov])]
    unfold dupWalk
    congr 1
    rw [← htext]
    simp

/-- Witness for C2's amended claim: in
`"Large farm big. Large farm again."` the second sentence shares 2 of the
larger set's 3 words with the first, so the output is truncated to the first
sentence. -/
theorem C2_witness :
    detect_llm_duplication "Large farm big. Large farm again." =
      "Large farm big." := by
  have h := (C2_duplication_truncation "Large farm big. Large farm again."
    ("Large farm big" : String).data (". " : String).data
    ("Large farm again." : String).data (by decide)).1 (by decide)
  rw [h]
  decide

-- sanity examples matching Python str.splitlines
example : splitLinesAux [] ("a\n\nb" : String).data =
    [("a" : String).data, [], ("b" : String).data] := by decide

example : splitLinesAux [] ("a\r\nb\n" : String).data =
    [("a" : String).data, ("b" : String).data] := by decide

-- sanity examples from the specification
example : filter_text_lines "November, 1947" = "November, 1947" := by decide

example : filter_text_lines "xq##" = "" := by decide

example : filter_text_lines "Walking near the bridge to\nClub." =
    "Walking near the bridge to\nClub." := by decide

lemma ne_append_singleton {α : Type} (l : List α) (a : α) : l ≠ l ++ [a] := by
  intro h
  have := congrArg List.length h
  simp at this

/-- C3 counterexample: the line `"ab cd"` is non-blank and passes the
specification's rejection ladder (4 letters, letter fraction 4/5 ≥ 0.25,
symbol fraction 0 ≤ 0.35), satisfies neither the strict nor the
permissive-short criterion, is short in the claim's sense (0 words of
length ≥ 3, length 5 ≤ 24, letter fraction ≥ 0.50), a line has already been
kept, and that line does not end in terminal punctuation — so by the claim
it would be kept — yet `filter_text_lines` drops it, because the code
additionally rejects every line with no word of length ≥ 3
(`if not words3: continue`, ocr_pages.py line 141-142) before the
continuation rule is reached. -/
theorem C3_counterexample :
    (("ab cd" : String).data ≠ [] ∧
     has_excessive_repetition ("ab cd" : String).data = false ∧
     4 ≤ alphaCount ("ab cd" : String).data ∧
     ¬ 4 * alphaCount ("ab cd" : String).data <
        max 1 ("ab cd" : String).data.length ∧
     ¬ 100 * symCount ("ab cd" : String).data >
        35 * max 1 ("ab cd" : String).data.length) ∧
    (strictOk ("ab cd" : String).data = false ∧
     isValidShort ("ab cd" : String).data = false) ∧
    (isShortCont ("ab cd" : String).data = true ∧
     prevTerminal (pyRStrip ("hello there" : String).data) = false) ∧
    lineStep [("hello there" : String).data] ("ab cd" : String).data =
      [("hello there" : String).data] := by
  decide

/-- C3 amended: a non-blank line that passes the full rejection ladder —
which besides the letter-count, letter-fraction and symbol-fraction tests
also rejects lines with excessive character repetition and lines with no
word of length ≥ 3 — and satisfies neither the strict nor the
permissive-short acceptance criterion is kept if and only if it is short
(at most 2 words of length ≥ 3, total length ≤ 24, letter fraction ≥ 0.50),
some line has already been kept, and the previously kept line either does
not end in `.`, `!` or `?`, or its last 4 words contain one of the cues
near/from/in/at/to/of/by/with, or it ends in an ellipsis, or the current
line starts with an uppercase letter (ocr_pages.py lines 113-195). -/
theorem C3_continuation_rule (kept : List (List Char)) (ln : List Char)
    (h0 : ln ≠ [])
    (h1 : has_excessive_repetition ln = false)
    (h2 : ¬ alphaCount ln < 4)
    (h3 : ¬ 4 * alphaCount ln < max 1 ln.length)
    (h4 : ¬ 100 * symCount ln > 35 * max 1 ln.length)
    (h5 : words3 ln ≠ [])
    (h6 : strictOk ln = false)
    (h7 : isValidShort ln = false) :
    lineStep kept ln = kept ++ [ln] ↔
      (kept ≠ [] ∧ isShortCont ln = true ∧
        (prevTerminal (pyRStrip (kept.getLast?.getD [])) = false ∨
         looksLikeIntro (pyRStrip (kept.getLast?.getD [])) = true ∨
         endsEllipsis (pyRStrip (kept.getLast?.getD [])) = true ∨
         startsCap ln = true)) := by
  unfold lineStep
  rw [if_neg (by simp [h0]), if_neg (by simp [h1]), if_neg h2, if_neg h3,
    if_neg h4, if_neg (by simp [h5]), if_neg (by simp [h6, h7])]
  by_cases hk : kept.isEmpty = true
  · rw [if_pos hk]
    constructor
    · intro h
      exact absurd h (ne_append_singleton kept ln)
    · rintro ⟨hne, _, _⟩
      exact absurd (List.isEmpty_iff.mp hk) hne
  · rw [if_neg hk]
    have hne : kept ≠ [] := fun he => hk (by rw [he]; rfl)
    by_cases hsc : isShortCont ln = true
    · rw [if_pos hsc]
      by_cases hpt : prevTerminal (pyRStrip (kept.getLast?.getD [])) = false
      · rw [if_pos (by simp [hpt])]
        exact ⟨fun _ => ⟨hne, hsc, Or.inl hpt⟩, fun _ => rfl⟩
      · have hpt' : prevTerminal (pyRStrip (kept.getLast?.getD [])) = true := by
          rcases Bool.eq_false_or_eq_true
              (prevTerminal (pyRStrip (kept.getLast?.getD []))) with h | h
          · exact h
          · exact absurd h hpt
        rw [if_neg (by simp [hpt'])]
        by_cases hrec : (looksLikeIntro (pyRStrip (kept.getLast?.getD [])) ||
            endsEllipsis (pyRStrip (kept.getLast?.getD [])) ||
            startsCap ln) = true
        · rw [if_pos hrec]
          refine ⟨fun _ => ⟨hne, hsc, ?_⟩, fun _ => rfl⟩
          rcases Bool.or_eq_true_iff.mp hrec with h | h
          · rcases Bool.or_eq_true_iff.mp h with h2 | h2
            · exact Or.inr (Or.inl h2)
            · exact Or.inr (Or.inr (Or.inl h2))
          · exact Or.inr (Or.inr (Or.inr h))
        · rw [if_neg hrec]
          constructor
          · intro h
            exact absurd h (ne_append_singleton kept ln)
          · rintro ⟨_, _, hdisj⟩
            exfalso
            rcases hdisj with h | h | h | h
            · exact absurd hpt' (by simp [h])
            · exact hrec (by simp [h])
            · exact hrec (by simp [h])
            · exact hrec (by simp [h])
    · rw [if_neg hsc]
      constructor
      · intro h
        exact absurd h (ne_append_singleton kept ln)
      · rintro ⟨_, hsc2, _⟩
        exact absurd hsc2 hsc

/-- Witness for C3's amended claim: after the kept line
`"Went down the road near"` (no terminal punctuation), the short
continuation line `"mill."` is appended. -/
theorem C3_witness :
    lineStep [("Went down the road near" : String).data]
        ("mill." : String).data =
      [("Went down the road near" : String).data,
       ("mill." : String).data] :=
  (C3_continuation_rule _ _ (by decide) (by decide) (by decide) (by decide)
    (by decide) (by decide) (by decide) (by decide)).mpr
    ⟨by decide, by decide, Or.inl (by decide)⟩

lemma processCrop_tall_reject (iw ih : Nat) (c : CropIn)
    (htall : isTall iw ih c.w c.h = true)
    (hbad : tallTextOk (filter_text_lines c.text) = false) :
    processCrop iw ih c = none := by
  unfold processCrop processCropText
  split
  · rfl
  · split
    · rfl
    · split
      · rfl
      · rw [if_pos (by simp [htall, hbad])]

/-- C4: for a candidate region whose height exceeds 22% of the page height
and whose width exceeds 40% of the page width, the block quality filter
accepts its line-filtered text only if the text's letter count is at least
80 and its letter fraction is at least 0.30; in particular a tall region
whose filtered text has 50 letters at letter fraction 1/5 is rejected,
while filtered text with 100 letters at letter fraction 2/5 passes the
tall-region density check (ocr_pages.py lines 549-592). -/
theorem C4_tall_block_requirements (iw ih : Nat) (c : CropIn)
    (htall : isTall iw ih c.w c.h = true) :
    (∀ b, processCrop iw ih c = some b →
       80 ≤ alphaCount (filter_text_lines c.text).data ∧
       (3 : ℚ) / 10 ≤ (alphaCount (filter_text_lines c.text).data : ℚ) /
         ((max 1 (filter_text_lines c.text).length : ℕ) : ℚ)) ∧
    (alphaCount (filter_text_lines c.text).data = 50 →
       processCrop iw ih c = none) ∧
    (alphaCount (filter_text_lines c.text).data = 100 →
       (alphaCount (filter_text_lines c.text).data : ℚ) /
           ((max 1 (filter_text_lines c.text).length : ℕ) : ℚ) = 2 / 5 →
       tallTextOk (filter_text_lines c.text) = true) := by
  have hM1 : (1 : ℕ) ≤ max 1 (filter_text_lines c.text).length :=
    le_max_left 1 _
  have hMq : (0 : ℚ) < ((max 1 (filter_text_lines c.text).length : ℕ) : ℚ) := by
    exact_mod_cast lt_of_lt_of_le one_pos hM1
  have key : ∀ b, processCrop iw ih c = some b →
      tallTextOk (filter_text_lines c.text) = true := by
    intro b hb
    rcases Bool.eq_false_or_eq_true (tallTextOk (filter_text_lines c.text))
      with hok | hok
    · exact hok
    · rw [processCrop_tall_reject iw ih c htall hok] at hb
      cases hb
  refine ⟨?_, ?_, ?_⟩
  · intro b hb
    have hok := key b hb
    unfold tallTextOk at hok
    simp only [Bool.not_eq_true', Bool.or_eq_false_iff,
      decide_eq_false_iff_not, not_lt] at hok
    refine ⟨hok.1, ?_⟩
    rw [div_le_div_iff₀ (by norm_num) hMq]
    have h3 := (Nat.cast_le (α := ℚ)).mpr hok.2
    push_cast at h3 ⊢
    linarith
  · intro h50
    rcases Bool.eq_false_or_eq_true (tallTextOk (filter_text_lines c.text))
      with hok | hok
    · exfalso
      unfold tallTextOk at hok
      simp only [Bool.not_eq_true', Bool.or_eq_false_iff,
        decide_eq_false_iff_not, not_lt] at hok
      rw [h50] at hok
      omega
    · exact processCrop_tall_reject iw ih c htall hok
  · intro h100 hfrac
    have hM : ((max 1 (filter_text_lines c.text).length : ℕ) : ℚ) = 250 := by
      rw [h100, div_eq_iff (ne_of_gt hMq)] at hfrac
      push_cast at hfrac ⊢
      linarith
    have hMnat : max 1 (filter_text_lines c.text).length = 250 := by
      exact_mod_cast hM
    unfold tallTextOk
    simp only [Bool.not_eq_true', Bool.or_eq_false_iff,
      decide_eq_false_iff_not, not_lt]
    rw [h100, hMnat]
    omega

/-- Witness for C4: the region `(w, h) = (410, 300)` on a 1000×1000 page is
tall (30% height, 41% width) and within the area cap; with the witness
caption text the crop is accepted, so the theorem yields its letter bound
and letter fraction. -/
theorem C4_witness :
    80 ≤ alphaCount (filter_text_lines tallWitnessText).data ∧
    (3 : ℚ) / 10 ≤ (alphaCount (filter_text_lines tallWitnessText).data : ℚ) /
      ((max 1 (filter_text_lines tallWitnessText).length : ℕ) : ℚ) :=
  (C4_tall_block_requirements 1000 1000 ⟨100, 100, 410, 300, tallWitnessText⟩
    (by decide)).1 ⟨100, 100, 510, 400, tallWitnessText⟩ (by decide)

lemma process_album_filenames (pages : List PageIn) :
    (process_album pages).map PageRec.filename =
      (pages.filter (fun p => p.crops.isSome)).map PageIn.name := by
  induction pages with
  | nil => rfl
  | cons p rest ih =>
    unfold process_album at ih ⊢
    cases hc : p.crops with
    | none => simpa [List.filterMap_cons, List.filter_cons, hc] using ih
    | some cs =>
      simp only [List.filterMap_cons, List.filter_cons, hc, Option.map_some',
        Option.isSome_some, if_true, List.map_cons]
      rw [ih]
      rfl

/-- C8: every readable page image yields exactly one page record, in input
order, even when zero candidate regions survive filtering — so the number
of page records equals the number of readable images; a readable page all
of whose crops are filtered out (here: with no crops at all) still emits a
record with an empty blocks list (ocr_pages.py lines 514-664). -/
theorem C8_pages_always_emitted :
    (∀ pages : List PageIn,
       (process_album pages).map PageRec.filename =
         (pages.filter (fun p => p.crops.isSome)).map PageIn.name ∧
       (process_album pages).length =
         (pages.filter (fun p => p.crops.isSome)).length) ∧
    (∀ nm pth w h, process_album [⟨nm, pth, w, h, some []⟩] =
       [⟨nm, pth, [], "", [], ""⟩]) := by
  constructor
  · intro pages
    have h := process_album_filenames pages
    refine ⟨h, ?_⟩
    have := congrArg List.length h
    simpa using this
  · intro nm pth w h
    rfl

/-- C6: within an album, the page entries written to the search index carry
`image_index` values `0, 1, ..., n-1` in order (no gaps or duplicates),
their filenames appear in ascending order, the `i`-th entry is built from
the `i`-th page of the filename-sorted page list, and there is one entry per
page (ocr_pages.py lines 750-767, rebuild_search_index.py lines 128-148). -/
theorem C6_image_index_rank (album : String) (records : List PageRec) :
    (pageEntries album records).map PageEntry.image_index =
      List.range records.length ∧
    List.Sorted (· ≤ ·)
      ((pageEntries album records).map PageEntry.page_filename) ∧
    (pageEntries album records).map PageEntry.page_filename =
      (sortPagesByFilename records).map PageRec.filename ∧
    (pageEntries album records).length = records.length := by
  have hperm : (sortPagesByFilename records).length = records.length :=
    (List.perm_insertionSort recLE records).length_eq
  have hmapfn : (pageEntries album records).map PageEntry.page_filename =
      (sortPagesByFilename records).map PageRec.filename := by
    unfold pageEntries
    rw [List.map_map]
    have : (PageEntry.page_filename ∘ fun ie : Nat × PageRec =>
        ({ album := album, page_filename := ie.2.filename,
           page_path := ie.2.path, image_index := ie.1,
           captions := ie.2.captions,
           searchable_text :=
             String.intercalate " " ie.2.captions ++ " " ++ ie.2.filename } :
          PageEntry)) = (fun ie : Nat × PageRec => ie.2.filename) := rfl
    rw [this, show (fun ie : Nat × PageRec => ie.2.filename) =
      (PageRec.filename ∘ Prod.snd) from rfl, ← List.map_map,
      List.enum_map_snd]
  refine ⟨?_, ?_, hmapfn, ?_⟩
  · unfold pageEntries
    rw [List.map_map]
    have : (PageEntry.image_index ∘ fun ie : Nat × PageRec =>
        ({ album := album, page_filename := ie.2.filename,
           page_path := ie.2.path, image_index := ie.1,
           captions := ie.2.captions,
           searchable_text :=
             String.intercalate " " ie.2.captions ++ " " ++ ie.2.filename } :
          PageEntry)) = Prod.fst := rfl
    rw [this, List.enum_map_fst, hperm]
  · rw [hmapfn]
    haveI : IsTotal PageRec recLE := ⟨fun a b => le_total a.filename b.filename⟩
    haveI : IsTrans PageRec recLE := ⟨fun a b c h1 h2 => le_trans h1 h2⟩
    have hs : List.Sorted recLE (sortPagesByFilename records) :=
      List.sorted_insertionSort recLE records
    exact List.Pairwise.map PageRec.filename (fun a b hab => hab) hs
  · unfold pageEntries
    rw [List.length_map, List.enum_length, hperm]
